import Mathlib

/-!
Verification development for the Document Restructuring Engine of the
trakktor repository (src/trakktor/src/structify_text.rs).

The Rust source is shallowly embedded: every definition below mirrors one
function (or one constant) of `structify_text.rs`; stateful pieces (the
redb-backed call cache, the chat capability) are modelled as explicit
state passing over pure values.  The chat capability is an oracle
function from (system prompt, user text, attempt number) to the
assistant's response; the cache is a function from key strings to
optional typed payloads; the blake3+base64 content hash of hasher.rs is
modelled as an abstract function `h : String → String` (its relevant
property, injectivity, is taken as a hypothesis where a theorem needs
it).  Rust panics (index/unwrap failures) are modelled as error results,
and the driver loop, whose termination is not structural (a poisoned
cache entry could keep the word stream from shrinking), takes an
explicit fuel parameter.
-/

/-! ## Characters and whitespace -/

/-- Whitespace test used by Rust's `split_whitespace`, `trim` and friends,
restricted to the ASCII whitespace characters that the pipeline ever
manipulates. -/
def isWsChar (c : Char) : Bool :=
  c = ' ' || c = '\t' || c = '\n' || c = '\x0b' || c = '\x0c' || c = '\r'

/-- Helper for `splitWsChars`: returns the word prefix starting at the head
of the remaining text together with the completed words after it. -/
def splitWsGo : List Char → List Char × List (List Char)
  | [] => ([], [])
  | c :: cs =>
    let r := splitWsGo cs
    if isWsChar c then ([], if r.1.isEmpty then r.2 else r.1 :: r.2)
    else (c :: r.1, r.2)

/-- The word list of a character sequence: maximal runs of non-whitespace
characters, as produced by Rust's `str::split_whitespace` (no empty
words). -/
def splitWsChars (cs : List Char) : List (List Char) :=
  let r := splitWsGo cs
  if r.1.isEmpty then r.2 else r.1 :: r.2

/-- Rust's `str::split_whitespace`, collected into a list. -/
def splitWsStr (s : String) : List String :=
  (splitWsChars s.data).map String.mk

/-- Rust's `str::trim` on a character list. -/
def trimChars (cs : List Char) : List Char :=
  ((cs.dropWhile isWsChar).reverse.dropWhile isWsChar).reverse

/-- Rust's `str::trim`. -/
def trimStr (s : String) : String := String.mk (trimChars s.data)

/-- Normalization applied to model responses before the fidelity check:
`content.split_whitespace().join(" ")`. -/
def normalizeWs (s : String) : String :=
  String.intercalate " " (splitWsStr s)

/-! ## Levenshtein edit distance

The `edit_distance` crate used by the source computes the Levenshtein
distance over the characters of its two arguments.  The definition below
is the standard functional recurrence (with the usual shortcut that equal
head characters contribute cost 0 through the substitution branch, which
is always optimal); it is structurally recursive so that it evaluates
inside the kernel. -/

/-- Inner recursion of `lev`: `levAux f x tailLen ys` computes the
distance between `x :: xs` and `ys`, where `f` computes distances from
`xs` and `tailLen = xs.length`. -/
def levAux (f : List Char → Nat) (x : Char) (tailLen : Nat) : List Char → Nat
  | [] => tailLen + 1
  | y :: ys =>
    if x = y then f ys
    else 1 + min (f (y :: ys)) (min (levAux f x tailLen ys) (f ys))

/-- Levenshtein distance between two character lists. -/
def lev : List Char → List Char → Nat
  | [] => fun ys => ys.length
  | x :: xs => levAux (lev xs) x xs.length

/-- Levenshtein distance between two strings:
`edit_distance::edit_distance`. -/
def editDistance (a b : String) : Nat := lev a.data b.data

/-! ## Joining words -/

/-- The source's `push_word`: append a word to an accumulating text,
preceded by a single space when the text is non-empty. -/
def pushWord (text word : String) : String :=
  (if text.isEmpty then text else text.push ' ') ++ word

/-- Joining a word list with single spaces by repeated `push_word`, as the
chunk-building loop of `words_to_paragraphs` does. -/
def joinWords (ws : List String) : String := ws.foldl pushWord ""

/-! ## Response parsing (lines, paragraphs) -/

/-- Replace every CRLF by a bare LF; together with `linesAux` this models
Rust's `str::lines` (which splits at `\n` and strips a `\r` that directly
precedes it). -/
def stripCR : List Char → List Char
  | [] => []
  | '\r' :: '\n' :: rest => '\n' :: stripCR rest
  | c :: rest => c :: stripCR rest

/-- Prepend a character to the first line of a line list (starting a new
line when there is none). -/
def linesConsHead (c : Char) : List (List Char) → List (List Char)
  | [] => [[c]]
  | l :: ls => (c :: l) :: ls

/-- Split a character sequence at `\n`; a trailing newline does not
produce a final empty line. -/
def linesAux : List Char → List (List Char)
  | [] => []
  | c :: cs => if c = '\n' then [] :: linesAux cs else linesConsHead c (linesAux cs)

/-- Rust's `str::lines`, collected into a list. -/
def rustLines (s : String) : List String :=
  (linesAux (stripCR s.data)).map String.mk

/-- Helper mirroring itertools' `chunk_by` on the emptiness key followed by
the `filter_map` that keeps only non-blank groups: returns the leading
group of non-blank lines and the remaining groups. -/
def paraGoPair : List String → List String × List (List String)
  | [] => ([], [])
  | l :: ls =>
    let r := paraGoPair ls
    if l.isEmpty then ([], if r.1.isEmpty then r.2 else r.1 :: r.2)
    else (l :: r.1, r.2)

/-- Parse an accepted response into paragraphs, as `get_paragraphs` does:
split into lines, trim each line, group contiguous non-blank lines, and
join each group with single spaces. -/
def parseParagraphs (content : String) : List String :=
  let ls := (rustLines content).map trimStr
  let r := paraGoPair ls
  let groups := if r.1.isEmpty then r.2 else r.1 :: r.2
  groups.map (String.intercalate " ")

/-! ## First-minimum selection

Rust's `Iterator::min_by_key` returns the first element attaining the
minimum key. -/

/-- First element of the list attaining the minimal key, if any. -/
def minByFirst (key : α → Nat) : List α → Option α
  | [] => none
  | x :: xs => some (xs.foldl (fun b y => if key y < key b then y else b) x)

/-! ## Prompt constants

Values of the raw-string constants of the source (a Rust raw string
`r#"""…"""#` begins and ends with two literal quote characters). -/

/-- The fixed system prompt of the Segmentation Call. -/
def STRUCTIFY_PROMPT : String :=
  "\"\"\nYou are an AI assistant tasked with splitting any text input into paragraphs. Your goal is to format the text by inserting paragraph breaks at logical points without altering the original content in any way. Each paragraph should be separated by exactly one blank line. Follow these guidelines when breaking the text into paragraphs:\n\n- **Logical Divisions:** Insert paragraph breaks where there are shifts in topic, introduction of new ideas, changes in time or place, or natural pauses in the narrative.\n- **Preserve Original Formatting:** Do not change any words, punctuation, capitalization, or spacing within sentences. Maintain any existing paragraph or line breaks.\n- **Consistent Output Format:** Ensure the output text matches the input exactly in content, with the only changes being the insertion of paragraph breaks as specified.\n- **Special Cases:** For texts that are very short or lack clear division points, use your best judgment to determine if paragraph breaks are necessary.\n\n*Example input:*\n\nThis is the first sentence. Here is some additional text. This is another idea.\nNow we are shifting to a new point. Another sentence follows this one. Conclusion here.\n\n*Example output:*\n\nThis is the first sentence. Here is some additional text. This is another idea.\n\nNow we are shifting to a new point. Another sentence follows this one.\n\nConclusion here.\n\n\nEnsure that the output text maintains this format regardless of the input, and remember not to alter the content in any way—only adjust the paragraph formatting.\n\"\""

/-- The fixed system prompt of the per-paragraph summarization call. -/
def SUMMARIZE_PARAGRAPH_PROMPT : String :=
  "\"\"\nWhen given a text, provide a brief summary in one sentence no longer than 20\nwords, using the same language as the original text. \"\""

/-- The fixed system prompt of the section-title call. -/
def GET_SECTION_TITLE_PROMPT : String :=
  "\"\"\nYour task is to generate a headline for the provided text. The headline should capture the main idea and key points clearly and concisely, using simple language. Make sure the headline is a single sentence, do not use quotation marks around it, and use the same language as the text.\n\"\""

/-! ## Data model: boundary result, cache, oracle, errors -/

/-- The Boundary Reconciler's result (`NextTextWordsRes`). -/
structure NextRes where
  words : List String
  skipped_words : Nat
  distance : Nat
deriving DecidableEq

/-- Typed cache payloads: a string, a paragraph list, or a boundary
result (the three payload types the source serializes). -/
inductive CacheVal where
  | str : String → CacheVal
  | strs : List String → CacheVal
  | boundary : NextRes → CacheVal
deriving DecidableEq

/-- The call cache, modelled as a map from key strings to payloads. -/
def Cache := String → Option CacheVal

/-- The empty cache. -/
def emptyCache : Cache := fun _ => none

/-- Store a payload under a key (`CallCache::put_data`). -/
def cachePut (c : Cache) (k : String) (v : CacheVal) : Cache :=
  fun q => if q = k then some v else c q

/-- The chat capability: maps (system prompt, user text, attempt number)
to the assistant's response content. -/
def Oracle := String → String → Nat → String

/-- Failure modes of the embedded engine.  `emptyInput`,
`insufficientSegmentation` and `consistency` correspond to the source's
`bail!` calls; `reconcilerPanic`, `sliceOutOfRange` and `indexOutOfRange`
model Rust panics (unwrap of `None`, out-of-range slice/index);
`cacheDecode` models a deserialization failure on a cache hit of the
wrong payload type; `outOfFuel` is the fuel artifact of the embedding. -/
inductive DriverErr where
  | emptyInput
  | insufficientSegmentation
  | reconcilerPanic
  | cacheDecode
  | sliceOutOfRange
  | indexOutOfRange
  | consistency
  | outOfFuel
deriving DecidableEq

/-! ## Cache keys -/

/-- Pre-image of the `get_paragraphs` cache key (the argument handed to
the content hash). -/
def gpKeyStr (config text : String) : String :=
  "get_paragraphs:\n" ++ config ++ "\n\n" ++ STRUCTIFY_PROMPT ++ "\n\n" ++ text

/-- The `get_paragraphs` cache key. -/
def gpKey (h : String → String) (config text : String) : String :=
  h (gpKeyStr config text)

/-- Pre-image of the `get_next_text_words` cache key.  Note that it hashes
only the accepted paragraphs and the original text: no provider
configuration fingerprint and no prompt take part. -/
def ntwKeyStr (accepted : List String) (orig : String) : String :=
  "get_next_text_words:\n" ++ String.intercalate "\n" accepted ++ "\n-----\n" ++ orig

/-- The `get_next_text_words` cache key. -/
def ntwKey (h : String → String) (accepted : List String) (orig : String) : String :=
  h (ntwKeyStr accepted orig)

/-- The key `get_next_text_words` uses during a run whose provider
configuration fingerprint is `config`: the source computes the key
without the fingerprint, so the parameter is dead. -/
def ntwKeyUnderConfig (h : String → String) (config : String)
    (accepted : List String) (orig : String) : String :=
  ntwKey h accepted orig

/-- Pre-image of the `summarize_paragraphs` cache key. -/
def sumKeyStr (config par : String) : String :=
  "summarize_paragraphs:\n" ++ config ++ "\n\n" ++ SUMMARIZE_PARAGRAPH_PROMPT ++ "\n\n" ++ par

/-- The `summarize_paragraphs` cache key. -/
def sumKey (h : String → String) (config par : String) : String :=
  h (sumKeyStr config par)

/-- Rust's `Debug` rendering of a `Vec<String>` (escape sequences inside
the strings elided; no key property proved here depends on them). -/
def rustDebugFmt (l : List String) : String :=
  "[" ++ String.intercalate ", " (l.map (fun s => "\"" ++ s ++ "\"")) ++ "]"

/-- Pre-image of the `get_section_title` cache key. -/
def titleKeyStr (config : String) (paragraphs : List String) : String :=
  "get_section_title:\n" ++ config ++ "\n\n" ++ GET_SECTION_TITLE_PROMPT ++ "\n\n" ++ rustDebugFmt paragraphs

/-- The `get_section_title` cache key. -/
def titleKey (h : String → String) (config : String) (paragraphs : List String) : String :=
  h (titleKeyStr config paragraphs)

/-! ## Boundary Reconciler (`get_next_text_words`) -/

/-- The flattened accepted-paragraph word list of `get_next_text_words`
(`llm_res_words`): split each paragraph on whitespace, flatten, drop
empty words. -/
def llmWordsOf (accepted : List String) : List String :=
  ((accepted.map splitWsStr).flatten).filter (fun w => !w.isEmpty)

/-- The scanning loop of `get_next_text_words`: walk the original words,
extending the prefix fragment word by word; record
`(i, edit_distance(llmText, fragment))` for every index `i ≥ fromI`, and
stop right after the first index `i ≥ toI`. -/
def scanLoop (llmText : String) (fromI toI : Int) :
    List String → Nat → String → List (Nat × Nat) → List (Nat × Nat)
  | [], _, _, acc => acc
  | w :: ws, i, frag, acc =>
    let frag' := pushWord frag w
    let acc' := if fromI ≤ (i : Int) then acc ++ [(i, editDistance llmText frag')] else acc
    if toI ≤ (i : Int) then acc' else scanLoop llmText fromI toI ws (i + 1) frag' acc'

/-- The cache-miss computation of `get_next_text_words`.  Returns `none`
exactly when the candidate-distance list is empty, which in the source is
the `unwrap` panic. -/
def ntwCore (accepted : List String) (orig : String) : Option NextRes :=
  let llmWords := llmWordsOf accepted
  let llmText := String.intercalate " " llmWords
  let n : Int := llmWords.length
  let origWords := splitWsStr orig
  let ds := scanLoop llmText (n - 25) (n + 25) origWords 0 "" []
  match minByFirst (fun p => p.2) ds with
  | none => none
  | some (i, d) => some ⟨origWords.drop (i + 1), i, d⟩

/-- Modelled from the spec, as the refinement comparator for the
Boundary Reconciler: the recorded `(index, edit distance)` pairs for
every original-word index `i` in the window from `max(N − 25, 0)`
through `min(N + 25, last word index)`, where `N` is the word count of
the flattened accepted paragraphs `M` and `prefix(i)` is the
space-joined prefix of the original words through index `i`. -/
def specWindow (accepted : List String) (orig : String) : List (Nat × Nat) :=
  let n := (llmWordsOf accepted).length
  let origWords := splitWsStr orig
  let lo := n - 25
  let hi := min (n + 25) (origWords.length - 1)
  (List.range' lo (hi + 1 - lo)).map
    (fun k => (k, editDistance (String.intercalate " " (llmWordsOf accepted))
        (joinWords (origWords.take (k + 1)))))

/-- The Boundary Reconciler `get_next_text_words`: consult the cache,
compute on a miss, store the result. -/
def getNextTextWords (h : String → String) (accepted : List String) (orig : String)
    (c : Cache) : Except DriverErr (NextRes × Cache) :=
  let key := ntwKey h accepted orig
  match c key with
  | some (.boundary r) => .ok (r, c)
  | some _ => .error .cacheDecode
  | none =>
    match ntwCore accepted orig with
    | none => .error .reconcilerPanic
    | some r => .ok (r, cachePut c key (.boundary r))

/-! ## Segmentation Call (`get_paragraphs`) -/

/-- The retry loop of `get_paragraphs`.  `left` is the number of retries
still allowed (`MAX_RETRIES - retryNumber`, so `left = 0` is the source's
`retry_number > MAX_RETRIES - 1` test); `rn` is the current attempt
number; `retries` accumulates the rejected `(distance, content)` pairs.
Returns the accepted content together with the number of chat attempts
made. -/
def gpGo (oracle : Oracle) (text : String) : Nat → Nat → List (Nat × String) → String × Nat
  | 0, rn, retries =>
    let content := oracle (trimStr STRUCTIFY_PROMPT) text rn
    let resText := normalizeWs content
    let d := editDistance resText text
    if d > 64 then
      (match minByFirst (fun r => r.1) (retries ++ [(d, content)]) with
       | some best => (best.2, rn)
       | none => ("", rn))
    else (content, rn)
  | left' + 1, rn, retries =>
    let content := oracle (trimStr STRUCTIFY_PROMPT) text rn
    let resText := normalizeWs content
    let d := editDistance resText text
    if d > 64 then gpGo oracle text left' (rn + 1) (retries ++ [(d, content)])
    else (content, rn)

/-- The Segmentation Call `get_paragraphs`: consult the cache under the
(config, prompt, chunk text) key; on a miss run the fidelity-checked
retry loop (up to 10 attempts, threshold 64), parse the accepted content
into paragraphs, and cache the list.  The third component counts chat
attempts issued (0 on a hit). -/
def getParagraphs (h : String → String) (config : String) (oracle : Oracle)
    (text : String) (c : Cache) : Except DriverErr (List String × Cache × Nat) :=
  let key := gpKey h config text
  match c key with
  | some (.strs p) => .ok (p, c, 0)
  | some _ => .error .cacheDecode
  | none =>
    let r := gpGo oracle text 9 1 []
    let paragraphs := parseParagraphs r.1
    .ok (paragraphs, cachePut c key (.strs paragraphs), r.2)

/-! ## Chunk Driver (`words_to_paragraphs`) -/

/-- The chunk-size threshold of the driver. -/
def CHUNK_WORDS_THRESHOLD : Nat := 1000

/-- The driver's last-chunk test: the chunk text (first
`CHUNK_WORDS_THRESHOLD` words) equals the full remainder text. -/
def lastChunkFlag (ws : List String) : Bool :=
  joinWords (ws.take CHUNK_WORDS_THRESHOLD) == joinWords ws

/-- The driver loop of `words_to_paragraphs`.  Returns the accumulated
paragraphs, the final cache, the number of chat attempts issued, and the
number of loop iterations performed. -/
def wtpLoop (h : String → String) (config : String) (oracle : Oracle) :
    Nat → List String → List String → Cache → Except DriverErr (List String × Cache × Nat × Nat)
  | 0, _, _, _ => .error .outOfFuel
  | fuel + 1, ws, acc, c =>
    let llmText := joinWords (ws.take CHUNK_WORDS_THRESHOLD)
    let origText := joinWords ws
    match getParagraphs h config oracle llmText c with
    | .error e => .error e
    | .ok (paragraphs, c1, n1) =>
      if lastChunkFlag ws then .ok (acc ++ paragraphs, c1, n1, 1)
      else if paragraphs.length < 2 then .error .insufficientSegmentation
      else
        let accepted := paragraphs.dropLast
        match getNextTextWords h accepted origText c1 with
        | .error e => .error e
        | .ok (nr, c2) =>
          match wtpLoop h config oracle fuel nr.words (acc ++ accepted) c2 with
          | .error e => .error e
          | .ok (res, c3, n2, iters) => .ok (res, c3, n1 + n2, iters + 1)

/-- The Chunk Driver `words_to_paragraphs`: fail on an empty word stream,
otherwise run the loop. -/
def wordsToParagraphs (h : String → String) (config : String) (oracle : Oracle)
    (fuel : Nat) (words : List String) (c : Cache) :
    Except DriverErr (List String × Cache × Nat × Nat) :=
  if words.length < 1 then .error .emptyInput
  else wtpLoop h config oracle fuel words [] c

/-- Cache-free projection of a driver result: result paragraphs, chat
attempts, iterations. -/
def runParts : Except DriverErr (List String × Cache × Nat × Nat) →
    Option (List String × Nat × Nat)
  | .ok (res, _, n, it) => some (res, n, it)
  | .error _ => none

/-- Error projection of a driver result. -/
def runErr : Except DriverErr (List String × Cache × Nat × Nat) → Option DriverErr
  | .error e => some e
  | .ok _ => none

/-! ## Section Assembler (`create_titles` and its callees) -/

/-- The per-paragraph summarization loop (`summarize_paragraphs`): one
cached chat call per paragraph.  Returns the summaries in order, the
final cache, and the number of chat calls issued. -/
def summarizeParagraphs (h : String → String) (config : String) (oracle : Oracle) :
    List String → Cache → Except DriverErr (List String × Cache × Nat)
  | [], c => .ok ([], c, 0)
  | p :: ps, c =>
    let key := sumKey h config p
    match c key with
    | some (.str s) =>
      (match summarizeParagraphs h config oracle ps c with
       | .error e => .error e
       | .ok (rest, c', n) => .ok (s :: rest, c', n))
    | some _ => .error .cacheDecode
    | none =>
      let s := oracle (trimStr SUMMARIZE_PARAGRAPH_PROMPT) p 0
      (match summarizeParagraphs h config oracle ps (cachePut c key (.str s)) with
       | .error e => .error e
       | .ok (rest, c', n) => .ok (s :: rest, c', n + 1))

/-- The cached section-title call (`get_section_title`). -/
def getSectionTitle (h : String → String) (config : String) (oracle : Oracle)
    (paragraphs : List String) (c : Cache) : Except DriverErr (String × Cache × Nat) :=
  let key := titleKey h config paragraphs
  match c key with
  | some (.str s) => .ok (s, c, 0)
  | some _ => .error .cacheDecode
  | none =>
    let sectionText := String.intercalate "\n\n" paragraphs
    let s := oracle (trimStr GET_SECTION_TITLE_PROMPT) sectionText 0
    .ok (s, cachePut c key (.str s), 1)

/-- Insert-or-modify on a `BTreeMap`, modelled as an association list
kept strictly sorted by key: `entry(k).and_modify(f).or_insert(dflt)`. -/
def btUpsert (f : β → β) (dflt : β) (k : Nat) : List (Nat × β) → List (Nat × β)
  | [] => [(k, dflt)]
  | (k', v) :: rest =>
    if k < k' then (k, dflt) :: (k', v) :: rest
    else if k = k' then (k', f v) :: rest
    else (k', v) :: btUpsert f dflt k rest

/-- The per-section reconciliation loop of `create_titles`: for each
section, re-run the Boundary Reconciler against the still-unconsumed
tagged summary-word stream, count how many summary words of each
paragraph fall in the section, and drop the consumed words.  The slice
`[..=skipped_words]` panics when `skipped_words` is out of range, which
is modelled as `sliceOutOfRange`. -/
def sectionLoop (h : String → String) :
    List String → List (Nat × String) → Cache →
    Except DriverErr (List (List (Nat × Nat)) × Cache)
  | [], _, c => .ok ([], c)
  | sec :: secs, sw, c =>
    let currentText := String.intercalate " " (sw.map (fun p => p.2))
    match getNextTextWords h [sec] currentText c with
    | .error e => .error e
    | .ok (nr, c1) =>
      if nr.skipped_words < sw.length then
        let parWords := (sw.take (nr.skipped_words + 1)).foldl
          (fun m p => btUpsert (fun n => n + 1) 1 p.1 m) []
        (match sectionLoop h secs (sw.drop (nr.skipped_words + 1)) c1 with
         | .error e => .error e
         | .ok (rest, c2) => .ok (parWords :: rest, c2))
      else .error .sliceOutOfRange

/-- One step of building `par_in_section`:
`entry(parI).and_modify(replace when the new word count is larger).or_insert((secI, wcount))`. -/
def btUpsertSec (secI wcount parI : Nat) (m : List (Nat × (Nat × Nat))) :
    List (Nat × (Nat × Nat)) :=
  btUpsert (fun sc => if wcount > sc.2 then (secI, wcount) else sc) (secI, wcount) parI m

/-- Build `par_in_section`: for every paragraph index, the section in
which it contributed the most summary words (earlier section on ties). -/
def buildParInSection (spws : List (List (Nat × Nat))) : List (Nat × (Nat × Nat)) :=
  (spws.enum).foldl (fun m sp => sp.2.foldl (fun m pw => btUpsertSec sp.1 pw.2 pw.1 m) m) []

/-- Helper of `chunkRuns`: current run's section index, collected
paragraph indices of the current run (reversed), remaining pairs. -/
def chunkRunsGo : Nat → List Nat → List (Nat × Nat) → List (List Nat)
  | _, cur, [] => [cur.reverse]
  | s, cur, (s', p) :: rest =>
    if s' = s then chunkRunsGo s (p :: cur) rest
    else cur.reverse :: chunkRunsGo s' [p] rest

/-- Itertools' `chunk_by` on the section component of `(section, par)`
pairs, collecting the paragraph indices of each run. -/
def chunkRuns : List (Nat × Nat) → List (List Nat)
  | [] => []
  | (s, p) :: rest => chunkRunsGo s [p] rest

/-- `HashSet`-style insert on a list of distinct elements. -/
def setInsert (l : List Nat) (p : Nat) : List Nat :=
  if p ∈ l then l else p :: l

/-- Collect one emitted section: record every paragraph index in the
usage set and look its text up (`result_paragraphs[*p]`, whose
out-of-range panic is the `none` case). -/
def gatherSection (pars : List String) (usage : List Nat) :
    List Nat → Option (List Nat × List String)
  | [] => some (usage, [])
  | p :: ps =>
    match pars.get? p with
    | none => none
    | some t =>
      match gatherSection pars (setInsert usage p) ps with
      | none => none
      | some (u, ts) => some (u, t :: ts)

/-- Collect all emitted sections, threading the usage set through. -/
def buildSections (pars : List String) :
    List (List Nat) → List Nat → Option (List Nat × List (List String))
  | [], usage => some (usage, [])
  | g :: gs, usage =>
    match gatherSection pars usage g with
    | none => none
    | some (u1, ts) =>
      match buildSections pars gs u1 with
      | none => none
      | some (u2, rest) => some (u2, ts :: rest)

/-- The title-and-emit loop: a cached title call per section, followed by
the section's paragraphs, accumulated into the final document text. -/
def emitSections (h : String → String) (config : String) (oracle : Oracle) :
    List (List String) → Cache → Except DriverErr (String × Cache × Nat)
  | [], c => .ok ("", c, 0)
  | sec :: secs, c =>
    match getSectionTitle h config oracle sec c with
    | .error e => .error e
    | .ok (title, c1, n1) =>
      match emitSections h config oracle secs c1 with
      | .error e => .error e
      | .ok (rest, c2, n2) =>
        .ok ("###### " ++ trimStr title ++ "\n\n"
              ++ String.join (sec.map (fun p => p ++ "\n\n")) ++ rest, c2, n1 + n2)

/-- Result of the Section Assembler: paragraph summaries, section texts
found over the summary stream, the paragraph indices of each emitted
section, and the final titled document. -/
structure TitlesRes where
  summaries : List String
  sections : List String
  sectionIdx : List (List Nat)
  finalText : String

/-- The Section Assembler `create_titles`: summarize each paragraph,
segment the tagged summary-word stream with the Chunk Driver, apportion
summary words to sections with the Boundary Reconciler, assign each
paragraph to the section holding most of its summary words, validate
that every paragraph was assigned, then title and emit the sections. -/
def createTitles (h : String → String) (config : String) (oracle : Oracle) (fuel : Nat)
    (resultParagraphs : List String) (c : Cache) :
    Except DriverErr (TitlesRes × Cache × Nat) :=
  match summarizeParagraphs h config oracle resultParagraphs c with
  | .error e => .error e
  | .ok (summaries, c1, n1) =>
    let summariesWords :=
      ((summaries.enum).map (fun p => (splitWsStr p.2).map (fun w => (p.1, w)))).flatten
    match wordsToParagraphs h config oracle fuel (summariesWords.map (fun p => p.2)) c1 with
    | .error e => .error e
    | .ok (sections, c2, n2, _) =>
      match sectionLoop h sections summariesWords c2 with
      | .error e => .error e
      | .ok (spws, c3) =>
        let parInSec := buildParInSection spws
        let groups := chunkRuns (parInSec.map (fun e => (e.2.1, e.1)))
        match buildSections resultParagraphs groups [] with
        | none => .error .indexOutOfRange
        | some (usage, sectionTexts) =>
          if usage.length ≠ resultParagraphs.length then .error .consistency
          else
            match emitSections h config oracle sectionTexts c3 with
            | .error e => .error e
            | .ok (finalText, c4, n3) =>
              .ok (⟨summaries, sections, groups, finalText⟩, c4, n1 + n2 + n3)

/-- Cache-free projection of a Section Assembler result: the paragraph
indices of each emitted section. -/
def ctGroups : Except DriverErr (TitlesRes × Cache × Nat) → Option (List (List Nat))
  | .ok (r, _, _) => some r.sectionIdx
  | .error _ => none

/-! ## Concrete replay scenario for the idempotence property -/

/-- Oracle of the first idempotence run: answer with the chunk text
itself (a perfectly faithful segmentation). -/
def w4oracle1 : Oracle := fun _ u _ => u

/-- First run of the Chunk Driver on a two-word document against an
empty cache. -/
def w4run1 : Except DriverErr (List String × Cache × Nat × Nat) :=
  wordsToParagraphs id "cfg" w4oracle1 2 ["a", "b"] emptyCache

/-- The cache populated by the completed first run. -/
def w4cache : Cache :=
  match w4run1 with
  | .ok r => r.2.1
  | .error _ => emptyCache

/-! ## Concrete all-"a" scenario constants

Documents made of `n` copies of the word "a" make every driver
computation tractable symbolically.  The caches below hold entries that
a previous (interrupted or adversarial-model) run would have produced:
the stored boundary results are exactly what `ntwCore` computes on the
corresponding inputs, and the stored paragraph lists are parses of
responses a model could return (the oversized ones through the
best-effort fallback of the retry loop). -/

/-- The text consisting of `n` copies of the word "a", space-joined. -/
def aWords (n : Nat) : String := joinWords (List.replicate n "a")

/-- A cached segmentation of the 1000-word chunk whose accepted (first)
paragraph has 1026 words — more than the whole 1001-word document. -/
def c5pars : List String := [aWords 1026, aWords 1]

/-- Cache for the reconciler-panic driver run. -/
def c5cache : Cache :=
  cachePut emptyCache (gpKey id "cfg" (aWords 1000)) (.strs c5pars)

/-- A cached segmentation whose accepted paragraph has 2475 words. -/
def c8pars : List String := [aWords 2475, aWords 1]

/-- The boundary result `ntwCore [aWords 2475] (aWords 2500)` computes:
index 2474 matches exactly, leaving 25 words. -/
def c8boundary : NextRes := ⟨List.replicate 25 "a", 2474, 0⟩

/-- Cache for the two-iteration run on a 2500-word document. -/
def c8cache : Cache :=
  cachePut (cachePut (cachePut emptyCache
    (gpKey id "cfg" (aWords 1000)) (.strs c8pars))
    (ntwKey id [aWords 2475] (aWords 2500)) (.boundary c8boundary))
    (gpKey id "cfg" (aWords 25)) (.strs [aWords 25])

/-- A complete Section Assembler run: two one-word paragraphs, a faithful
oracle, an empty cache. -/
def c7run : Except DriverErr (TitlesRes × Cache × Nat) :=
  createTitles id "cfg" (fun _ u _ => u) 2 ["a", "b"] emptyCache

/-- The `TitlesRes` of `c7run`. -/
def c7res : TitlesRes :=
  match c7run with | .ok (r, _, _) => r | .error _ => ⟨[], [], [], ""⟩

/-- The final cache of `c7run`. -/
def c7cacheF : Cache :=
  match c7run with | .ok (_, cc, _) => cc | .error _ => emptyCache

/-- The chat-call count of `c7run`. -/
def c7calls : Nat :=
  match c7run with | .ok (_, _, n) => n | .error _ => 0

/-- Oracle for the Section Assembler reachability run: segment the
two-word chunk "a b" into two paragraphs, echo anything else. -/
def c10oracle : Oracle := fun _ u _ => if u = "a b" then "a b\n\nx" else u

/-! ## Helper lemmas: strings -/

lemma strData_append (a b : String) : (a ++ b).data = a.data ++ b.data := by
  cases a; cases b; rfl

lemma strExt {a b : String} (hd : a.data = b.data) : a = b := by
  cases a; cases b; exact congrArg String.mk hd

lemma strCancelMid (A B x y : String) (hxy : A ++ x ++ B = A ++ y ++ B) : x = y := by
  have hd := congrArg String.data hxy
  simp only [strData_append, List.append_assoc] at hd
  exact strExt (List.append_cancel_right (List.append_cancel_left hd))

/-! ## C6: cache key structure -/

/-- Claim C6 (corrected), amended part.  The chat-backed operations'
cache keys hash the operation tag, the provider configuration
fingerprint, the fixed system prompt and the textual input, so (for an
injective content hash) changing the fingerprint changes the key; key
determinism is immediate since the key builders are pure functions.  The
Boundary Reconciler's key, however, hashes only the accepted paragraphs
and the original text, so it does not depend on the provider
configuration fingerprint at all. -/
theorem cacheKeys_fingerprint_dependence (h : String → String)
    (hinj : Function.Injective h) :
    (∀ cfg₁ cfg₂ t, cfg₁ ≠ cfg₂ → gpKey h cfg₁ t ≠ gpKey h cfg₂ t) ∧
    (∀ cfg₁ cfg₂ p, cfg₁ ≠ cfg₂ → sumKey h cfg₁ p ≠ sumKey h cfg₂ p) ∧
    (∀ cfg₁ cfg₂ ps, cfg₁ ≠ cfg₂ → titleKey h cfg₁ ps ≠ titleKey h cfg₂ ps) ∧
    (∀ cfg₁ cfg₂ ps o, ntwKeyUnderConfig h cfg₁ ps o = ntwKeyUnderConfig h cfg₂ ps o) := by
  refine ⟨?_, ?_, ?_, fun _ _ _ _ => rfl⟩
  · intro cfg₁ cfg₂ t hne he
    apply hne
    have := hinj he
    unfold gpKeyStr at this
    exact strCancelMid "get_paragraphs:\n" ("\n\n" ++ STRUCTIFY_PROMPT ++ "\n\n" ++ t) _ _
      (by simpa [String.append_assoc] using this)
  · intro cfg₁ cfg₂ p hne he
    apply hne
    have := hinj he
    unfold sumKeyStr at this
    exact strCancelMid "summarize_paragraphs:\n"
      ("\n\n" ++ SUMMARIZE_PARAGRAPH_PROMPT ++ "\n\n" ++ p) _ _
      (by simpa [String.append_assoc] using this)
  · intro cfg₁ cfg₂ ps hne he
    apply hne
    have := hinj he
    unfold titleKeyStr at this
    exact strCancelMid "get_section_title:\n"
      ("\n\n" ++ GET_SECTION_TITLE_PROMPT ++ "\n\n" ++ rustDebugFmt ps) _ _
      (by simpa [String.append_assoc] using this)

/-- Claim C6, counterexample to the claim as stated: the claim asserts
that every cached operation's key changes when the provider configuration
fingerprint changes, but the key `get_next_text_words` uses is identical
under two different fingerprints. -/
theorem cacheKeys_counterexample :
    ("provider-A" : String) ≠ "provider-B" ∧
    ntwKeyUnderConfig id "provider-A" ["p q"] "p q r"
      = ntwKeyUnderConfig id "provider-B" ["p q"] "p q r" := by
  exact ⟨by decide, rfl⟩

/-- Witness for `cacheKeys_fingerprint_dependence` at the identity hash
and concrete fingerprints. -/
theorem cacheKeys_fingerprint_dependence_witness :
    gpKey id "provider-A" "t" ≠ gpKey id "provider-B" "t" ∧
    ntwKeyUnderConfig id "provider-A" ["p"] "x"
      = ntwKeyUnderConfig id "provider-B" ["p"] "x" := by
  have hinj : Function.Injective (id : String → String) := fun _ _ hab => hab
  exact ⟨(cacheKeys_fingerprint_dependence id hinj).1 _ _ _ (by decide),
    (cacheKeys_fingerprint_dependence id hinj).2.2.2 _ _ _ _⟩

/-! ## Helper lemmas: word joining and C9 -/

lemma strNeEmpty_data {w : String} (hw : w ≠ "") : w.data ≠ [] := by
  intro hd
  exact hw (strExt (by simpa using hd))

lemma pushWord_length_le (s w : String) : s.length ≤ (pushWord s w).length := by
  unfold pushWord
  split
  · simp [String.length_append]
  · simp [String.length_append, String.length_push]
    omega

lemma pushWord_length_lt (s w : String) (hw : w ≠ "") :
    s.length < (pushWord s w).length := by
  have hwl : 0 < w.length :=
    Nat.pos_of_ne_zero (fun h0 => strNeEmpty_data hw (List.length_eq_zero.mp h0))
  unfold pushWord
  split
  · simp only [String.length_append]
    omega
  · simp only [String.length_append, String.length_push]
    omega

lemma foldl_pushWord_length_le (L : List String) :
    ∀ s : String, s.length ≤ (L.foldl pushWord s).length := by
  induction L with
  | nil => intro s; exact Nat.le_refl _
  | cons w L' ih =>
    intro s
    exact Nat.le_trans (pushWord_length_le s w) (ih (pushWord s w))

lemma foldl_pushWord_length_lt (L : List String) (hL : L ≠ [])
    (hw : ∀ w ∈ L, w ≠ "") (s : String) :
    s.length < (L.foldl pushWord s).length := by
  cases L with
  | nil => exact absurd rfl hL
  | cons w L' =>
    calc s.length < (pushWord s w).length :=
          pushWord_length_lt s w (hw w (List.mem_cons_self w L'))
      _ ≤ ((w :: L').foldl pushWord s).length := foldl_pushWord_length_le L' _

lemma joinWords_take_ne (ws : List String) (hgt : CHUNK_WORDS_THRESHOLD < ws.length)
    (hw : ∀ w ∈ ws, w ≠ "") :
    joinWords (ws.take CHUNK_WORDS_THRESHOLD) ≠ joinWords ws := by
  intro heq
  have hsplit : ws.take CHUNK_WORDS_THRESHOLD ++ ws.drop CHUNK_WORDS_THRESHOLD = ws :=
    List.take_append_drop _ ws
  have hfold : joinWords ws
      = (ws.drop CHUNK_WORDS_THRESHOLD).foldl pushWord (joinWords (ws.take CHUNK_WORDS_THRESHOLD)) := by
    conv_lhs => rw [← hsplit]
    exact List.foldl_append _ _ _ _
  have hdne : ws.drop CHUNK_WORDS_THRESHOLD ≠ [] := by
    intro hnil
    have := List.drop_eq_nil_iff.mp hnil
    omega
  have hlt := foldl_pushWord_length_lt (ws.drop CHUNK_WORDS_THRESHOLD) hdne
    (fun w hmem => hw w (List.drop_subset _ ws hmem)) (joinWords (ws.take CHUNK_WORDS_THRESHOLD))
  rw [← hfold, ← heq] at hlt
  exact Nat.lt_irrefl _ hlt

/-! ## C9: the last-chunk condition -/

/-- Claim C9 (confirmed).  For a non-empty word list of non-empty,
whitespace-free words, the chunk text (first `CHUNK_WORDS_THRESHOLD`
words, space-joined) equals the full remainder text exactly when the
list has at most `CHUNK_WORDS_THRESHOLD` words — so the driver's
last-chunk flag is true exactly when at most 1000 words remain. -/
lemma lastChunkFlag_le_iff (ws : List String) (hwe : ∀ w ∈ ws, w ≠ "") :
    lastChunkFlag ws = true ↔ ws.length ≤ CHUNK_WORDS_THRESHOLD := by
  unfold lastChunkFlag
  rw [beq_iff_eq]
  constructor
  · intro hjoin
    by_contra hgt
    push_neg at hgt
    exact joinWords_take_ne ws hgt hwe hjoin
  · intro hle
    rw [List.take_of_length_le hle]

theorem lastChunk_iff (ws : List String) (hne : ws ≠ [])
    (hwords : ∀ w ∈ ws, w ≠ "" ∧ ∀ c ∈ w.data, isWsChar c = false) :
    lastChunkFlag ws = true ↔ ws.length ≤ CHUNK_WORDS_THRESHOLD :=
  lastChunkFlag_le_iff ws (fun w hmem => (hwords w hmem).1)

/-- Witness for `lastChunk_iff` on a concrete two-word stream. -/
theorem lastChunk_iff_witness : lastChunkFlag ["a", "b"] = true :=
  (lastChunk_iff ["a", "b"] (by decide) (by decide)).mpr (by decide)

/-! ## Helper lemmas: first-minimum selection -/

lemma minByFirst_nil_iff (key : α → Nat) (l : List α) :
    minByFirst key l = none ↔ l = [] := by
  cases l <;> simp [minByFirst]

lemma minByFirst_cons_decomp (key : α → Nat) :
    ∀ (ys : List α) (y x : α),
      minByFirst key (y :: ys) = some x →
      ∃ pre suf, y :: ys = pre ++ x :: suf ∧
        (∀ q ∈ pre, key x < key q) ∧ (∀ q ∈ y :: ys, key x ≤ key q) := by
  intro ys
  induction ys with
  | nil =>
    intro y x hx
    simp [minByFirst] at hx
    exact ⟨[], [], by simp [hx], by simp, by simp [hx]⟩
  | cons z zs ih =>
    intro y x hx
    have hstep : minByFirst key (y :: z :: zs)
        = minByFirst key ((if key z < key y then z else y) :: zs) := by
      simp [minByFirst]
    rw [hstep] at hx
    by_cases hzy : key z < key y
    · rw [if_pos hzy] at hx
      obtain ⟨pre, suf, hdec, hpre, hall⟩ := ih z x hx
      have hxz : key x ≤ key z := hall z (List.mem_cons_self z zs)
      refine ⟨y :: pre, suf, ?_, ?_, ?_⟩
      · rw [List.cons_append, ← hdec]
      · intro q hq
        rcases List.mem_cons.mp hq with hq | hq
        · subst hq; omega
        · exact hpre q hq
      · intro q hq
        rcases List.mem_cons.mp hq with hq | hq
        · subst hq; omega
        · exact hall q hq
    · rw [if_neg hzy] at hx
      obtain ⟨pre, suf, hdec, hpre, hall⟩ := ih y x hx
      have hyz : key y ≤ key z := by omega
      have hxy' : key x ≤ key y := hall y (List.mem_cons_self y zs)
      cases pre with
      | nil =>
        simp only [List.nil_append] at hdec
        injection hdec with hy hzs
        refine ⟨[], z :: zs, ?_, by simp, ?_⟩
        · rw [List.nil_append, ← hy]
        · intro q hq
          rcases List.mem_cons.mp hq with hq | hq
          · subst hq
            rw [hy]
          · rcases List.mem_cons.mp hq with hq | hq
            · subst hq
              omega
            · exact hall q (List.mem_cons_of_mem y hq)
      | cons p pre' =>
        simp only [List.cons_append] at hdec
        injection hdec with hy hzs
        subst hy
        have hxy : key x < key y := hpre y (List.mem_cons_self y pre')
        refine ⟨y :: z :: pre', suf, ?_, ?_, ?_⟩
        · rw [List.cons_append, List.cons_append, ← hzs]
        · intro q hq
          rcases List.mem_cons.mp hq with hq | hq
          · subst hq; omega
          · rcases List.mem_cons.mp hq with hq | hq
            · subst hq; omega
            · exact hpre q (List.mem_cons_of_mem y hq)
        · intro q hq
          rcases List.mem_cons.mp hq with hq | hq
          · subst hq; omega
          · rcases List.mem_cons.mp hq with hq | hq
            · subst hq; omega
            · exact hall q (List.mem_cons_of_mem y hq)

lemma minByFirst_decomp (key : α → Nat) (l : List α) (x : α)
    (hx : minByFirst key l = some x) :
    ∃ pre suf, l = pre ++ x :: suf ∧
      (∀ q ∈ pre, key x < key q) ∧ (∀ q ∈ l, key x ≤ key q) := by
  cases l with
  | nil => simp [minByFirst] at hx
  | cons y ys => exact minByFirst_cons_decomp key ys y x hx

lemma minByFirst_mem (key : α → Nat) (l : List α) (x : α)
    (hx : minByFirst key l = some x) : x ∈ l := by
  obtain ⟨pre, suf, hdec, -, -⟩ := minByFirst_decomp key l x hx
  rw [hdec]
  exact List.mem_append_right pre (List.mem_cons_self x suf)

/-! ## Helper lemmas: the reconciler scan -/

lemma scanLoop_closed (M : String) (f t : Int) :
    ∀ (ws : List String) (i₀ : Nat) (frag : String) (acc : List (Nat × Nat)),
    scanLoop M f t ws i₀ frag acc =
      acc ++ ((List.range' i₀ ws.length).filter
          (fun (k : Nat) => decide (f ≤ (k : Int) ∧ (k : Int) ≤ max t (i₀ : Int)))).map
          (fun (k : Nat) => (k, editDistance M ((ws.take (k + 1 - i₀)).foldl pushWord frag))) := by
  intro ws
  induction ws with
  | nil => intro i₀ frag acc; simp [scanLoop]
  | cons w ws ih =>
    intro i₀ frag acc
    rw [List.length_cons, List.range'_succ, List.filter_cons]
    by_cases hbreak : t ≤ (i₀ : Int)
    · have hmax : max t (i₀ : Int) = (i₀ : Int) := max_eq_right hbreak
      have htail : ((List.range' (i₀ + 1) ws.length).filter
          (fun (k : Nat) => decide (f ≤ (k : Int) ∧ (k : Int) ≤ max t (i₀ : Int)))) = [] := by
        apply List.filter_eq_nil_iff.mpr
        intro k hk
        have hk1 := (List.mem_range'_1.mp hk).1
        simp only [hmax, decide_eq_true_eq]
        omega
      have hlhs : scanLoop M f t (w :: ws) i₀ frag acc
          = if f ≤ (i₀ : Int) then acc ++ [(i₀, editDistance M (pushWord frag w))] else acc := by
        simp only [scanLoop]
        rw [if_pos hbreak]
      rw [hlhs]
      by_cases hf : f ≤ (i₀ : Int)
      · rw [if_pos hf, htail]
        simp [hf, hmax]
      · rw [if_neg hf, htail]
        simp [hf]
    · push_neg at hbreak
      have hmax : max t (i₀ : Int) = t := max_eq_left (le_of_lt hbreak)
      have hmax' : max t ((i₀ + 1 : Nat) : Int) = t := by
        apply max_eq_left
        push_cast
        omega
      have hstep : scanLoop M f t (w :: ws) i₀ frag acc
          = scanLoop M f t ws (i₀ + 1) (pushWord frag w)
              (if f ≤ (i₀ : Int) then acc ++ [(i₀, editDistance M (pushWord frag w))] else acc) := by
        simp only [scanLoop]
        rw [if_neg (not_le.mpr hbreak)]
      rw [hstep, ih]
      have hmapeq : ((List.range' (i₀ + 1) ws.length).filter
            (fun (k : Nat) => decide (f ≤ (k : Int) ∧ (k : Int) ≤ max t ((i₀ + 1 : Nat) : Int)))).map
            (fun (k : Nat) => (k, editDistance M ((ws.take (k + 1 - (i₀ + 1))).foldl pushWord (pushWord frag w))))
          = ((List.range' (i₀ + 1) ws.length).filter
            (fun (k : Nat) => decide (f ≤ (k : Int) ∧ (k : Int) ≤ max t (i₀ : Int)))).map
            (fun (k : Nat) => (k, editDistance M (((w :: ws).take (k + 1 - i₀)).foldl pushWord frag))) := by
        rw [hmax', hmax]
        apply List.map_congr_left
        intro k hk
        have hk1 := (List.mem_range'_1.mp (List.mem_of_mem_filter hk)).1
        have htake : (w :: ws).take (k + 1 - i₀) = w :: ws.take (k + 1 - (i₀ + 1)) := by
          have h2 : k + 1 - i₀ = (k + 1 - (i₀ + 1)) + 1 := by omega
          rw [h2, List.take_succ_cons]
        rw [htake]
        rfl
      rw [hmapeq]
      by_cases hf : f ≤ (i₀ : Int)
      · have hle : (i₀ : Int) ≤ t := le_of_lt hbreak
        rw [if_pos hf]
        simp [hf, hmax, hle]
      · rw [if_neg hf]
        simp [hf]

lemma filter_range_window (len lo hi : Nat) (hlen : 0 < len) :
    (List.range' 0 len).filter (fun (k : Nat) => decide (lo ≤ k ∧ k ≤ hi))
      = List.range' lo (min hi (len - 1) + 1 - lo) := by
  have hs1 : ((List.range' 0 len).filter
      (fun (k : Nat) => decide (lo ≤ k ∧ k ≤ hi))).Sorted (· ≤ ·) :=
    List.Pairwise.filter _
      (List.Pairwise.imp (fun hab => Nat.le_of_lt hab) (List.pairwise_lt_range' 0 len))
  have hs2 : (List.range' lo (min hi (len - 1) + 1 - lo)).Sorted (· ≤ ·) :=
    List.Pairwise.imp (fun hab => Nat.le_of_lt hab) (List.pairwise_lt_range' _ _)
  have hn1 : ((List.range' 0 len).filter
      (fun (k : Nat) => decide (lo ≤ k ∧ k ≤ hi))).Nodup :=
    List.Nodup.filter _
      (List.Pairwise.imp (fun hab => Nat.ne_of_lt hab) (List.pairwise_lt_range' 0 len))
  have hn2 : (List.range' lo (min hi (len - 1) + 1 - lo)).Nodup :=
    List.Pairwise.imp (fun hab => Nat.ne_of_lt hab) (List.pairwise_lt_range' _ _)
  apply List.eq_of_perm_of_sorted _ hs1 hs2
  apply (List.perm_ext_iff_of_nodup hn1 hn2).mpr
  intro a
  simp only [List.mem_filter, List.mem_range'_1, decide_eq_true_eq]
  omega

lemma joinWords_foldl (ws : List String) : ws.foldl pushWord "" = joinWords ws := rfl

lemma ntwScan_eq_specWindow (accepted : List String) (orig : String)
    (ho : splitWsStr orig ≠ []) :
    scanLoop (String.intercalate " " (llmWordsOf accepted))
        (((llmWordsOf accepted).length : Int) - 25)
        (((llmWordsOf accepted).length : Int) + 25)
        (splitWsStr orig) 0 "" []
      = specWindow accepted orig := by
  have hlen : 0 < (splitWsStr orig).length := List.length_pos.mpr ho
  rw [scanLoop_closed]
  rw [List.nil_append]
  have hfc : ((List.range' 0 (splitWsStr orig).length).filter
        (fun (k : Nat) => decide ((((llmWordsOf accepted).length : Int) - 25) ≤ (k : Int)
          ∧ (k : Int) ≤ max (((llmWordsOf accepted).length : Int) + 25) ((0 : Nat) : Int))))
      = ((List.range' 0 (splitWsStr orig).length).filter
        (fun (k : Nat) => decide ((llmWordsOf accepted).length - 25 ≤ k
          ∧ k ≤ (llmWordsOf accepted).length + 25))) := by
    apply List.filter_congr
    intro k _
    apply decide_eq_decide.mpr
    have hmx : max (((llmWordsOf accepted).length : Int) + 25) ((0 : Nat) : Int)
        = ((llmWordsOf accepted).length : Int) + 25 := by
      apply max_eq_left
      push_cast
      omega
    rw [hmx]
    omega
  rw [hfc, filter_range_window _ _ _ hlen]
  unfold specWindow
  apply List.map_congr_left
  intro k _
  have : k + 1 - 0 = k + 1 := by omega
  rw [this, joinWords_foldl]

lemma ntwCore_eq (accepted : List String) (orig : String) (ho : splitWsStr orig ≠ []) :
    ntwCore accepted orig
      = (minByFirst (fun p => p.2) (specWindow accepted orig)).map
          (fun p => ⟨(splitWsStr orig).drop (p.1 + 1), p.1, p.2⟩) := by
  simp only [ntwCore]
  rw [ntwScan_eq_specWindow accepted orig ho]
  cases minByFirst (fun p => p.2) (specWindow accepted orig) with
  | none => rfl
  | some p => rfl

lemma ntwCore_nilOrig (accepted : List String) (orig : String)
    (ho : splitWsStr orig = []) : ntwCore accepted orig = none := by
  simp [ntwCore, ho, scanLoop, minByFirst]

lemma specWindow_length (accepted : List String) (orig : String) :
    (specWindow accepted orig).length
      = min ((llmWordsOf accepted).length + 25) ((splitWsStr orig).length - 1) + 1
          - ((llmWordsOf accepted).length - 25) := by
  simp only [specWindow]
  simp

/-! ## C1: the Boundary Reconciler refines the spec's window scan -/

/-- Claim C1 (corrected), amended part.  For a non-empty accepted-paragraph
list and an original remainder with at least one word, and provided the
scan window is non-empty (`N − 25` is below the original word count —
the amendment; otherwise the source panics), the Reconciler computes the
edit distance for exactly the indices of the spec's window
`max(N − 25, 0) .. min(N + 25, last index)` (the `specWindow` list),
picks the first pair with minimal recorded distance, and returns
`skipped_words = i*`, the original words strictly after `i*`, and
`distance(i*)`. -/
theorem boundary_refines_spec (accepted : List String) (orig : String)
    (hne : accepted ≠ []) (ho : splitWsStr orig ≠ [])
    (hwin : ((llmWordsOf accepted).length : Int) - 25 < ((splitWsStr orig).length : Int)) :
    ntwCore accepted orig
        = (minByFirst (fun p => p.2) (specWindow accepted orig)).map
            (fun p => ⟨(splitWsStr orig).drop (p.1 + 1), p.1, p.2⟩) ∧
    ∃ p pre suf, minByFirst (fun p => p.2) (specWindow accepted orig) = some p ∧
      specWindow accepted orig = pre ++ p :: suf ∧
      (∀ q ∈ pre, p.2 < q.2) ∧ (∀ q ∈ specWindow accepted orig, p.2 ≤ q.2) := by
  refine ⟨ntwCore_eq accepted orig ho, ?_⟩
  have hlen : 0 < (splitWsStr orig).length := List.length_pos.mpr ho
  have hwnil : specWindow accepted orig ≠ [] := by
    intro hnil
    have := congrArg List.length hnil
    rw [specWindow_length] at this
    simp at this
    omega
  cases hmin : minByFirst (fun p => p.2) (specWindow accepted orig) with
  | none => exact absurd ((minByFirst_nil_iff _ _).mp hmin) hwnil
  | some p =>
    obtain ⟨pre, suf, hdec, hpre, hall⟩ := minByFirst_decomp _ _ _ hmin
    exact ⟨p, pre, suf, rfl, hdec, hpre, hall⟩

/-- Witness for `boundary_refines_spec`: the spec's worked example.
Accepted paragraphs `["A B C", "D E"]` against original remainder
`"A B C D E F"` give `skipped_words = 4`, `remaining_words = ["F"]`,
`distance = 0`. -/
theorem boundary_refines_spec_witness :
    ntwCore ["A B C", "D E"] "A B C D E F" = some ⟨["F"], 4, 0⟩ := by
  rw [(boundary_refines_spec ["A B C", "D E"] "A B C D E F"
    (by decide) (by decide) (by decide)).1]
  decide

/-- Claim C1, counterexample to the claim as stated: with 26 accepted
words and a one-word original remainder the scan window is empty, so the
Reconciler panics (returns nothing) instead of returning a minimal index
— even though the accepted paragraphs are non-empty and the original
remainder has a word. -/
theorem reconciler_window_gap_panic :
    (["a a a a a a a a a a a a a a a a a a a a a a a a a a"] : List String) ≠ [] ∧
    splitWsStr "x" ≠ [] ∧
    ntwCore ["a a a a a a a a a a a a a a a a a a a a a a a a a a"] "x" = none := by
  exact ⟨by decide, by decide, by decide⟩

/-! ## C3: progress bounds of the Boundary Reconciler -/

/-- Claim C3 (corrected), amended part.  Whenever the Reconciler returns
a result (it panics on an empty scan window — the amendment), the
returned index satisfies `skipped_words < len(remainder)` and
`remaining_words` has exactly `len(remainder) − skipped_words − 1` words,
strictly fewer than the remainder, so the Chunk Driver drops at least
one word per iteration. -/
theorem boundary_progress (accepted : List String) (orig : String)
    (hne : accepted ≠ []) (res : NextRes)
    (hres : ntwCore accepted orig = some res) :
    res.skipped_words < (splitWsStr orig).length ∧
    res.words.length = (splitWsStr orig).length - res.skipped_words - 1 ∧
    res.words.length < (splitWsStr orig).length := by
  have ho : splitWsStr orig ≠ [] := by
    intro hnil
    rw [ntwCore_nilOrig accepted orig hnil] at hres
    exact Option.noConfusion hres
  have hlen : 0 < (splitWsStr orig).length := List.length_pos.mpr ho
  rw [ntwCore_eq accepted orig ho] at hres
  obtain ⟨p, hp, hres'⟩ := Option.map_eq_some'.mp hres
  have hpmem := minByFirst_mem _ _ _ hp
  have hklt : p.1 < (splitWsStr orig).length := by
    unfold specWindow at hpmem
    obtain ⟨k, hk, hkp⟩ := List.mem_map.mp hpmem
    have hkr := List.mem_range'_1.mp hk
    have : k = p.1 := by rw [← hkp]
    omega
  rw [← hres']
  refine ⟨hklt, ?_, ?_⟩
  · simp [List.length_drop]
    omega
  · simp [List.length_drop]
    omega

/-- Witness for `boundary_progress` at a concrete input: accepted
paragraphs `["x y", "z"]` against remainder `"x y z w"`. -/
theorem boundary_progress_witness :
    (NextRes.mk ["w"] 2 0).skipped_words < (splitWsStr "x y z w").length ∧
    (NextRes.mk ["w"] 2 0).words.length
      = (splitWsStr "x y z w").length - (NextRes.mk ["w"] 2 0).skipped_words - 1 ∧
    (NextRes.mk ["w"] 2 0).words.length < (splitWsStr "x y z w").length :=
  boundary_progress ["x y", "z"] "x y z w" (by decide) ⟨["w"], 2, 0⟩ (by decide)

/-- Claim C3, counterexample to the claim as stated: with a non-empty
accepted-paragraph set but an empty original remainder the Reconciler
panics (returns nothing), so no index `0 ≤ skipped_words < len(remainder)`
is produced — indeed none could exist, as `len(remainder) = 0`. -/
theorem boundary_progress_counterexample :
    (["a"] : List String) ≠ [] ∧ splitWsStr "" = [] ∧ ntwCore ["a"] "" = none := by
  exact ⟨by decide, by decide, by decide⟩

/-! ## C10: exact characterization of the reconciler panic -/

/-- On a cache miss the Reconciler panics (the candidate-distance list
is empty and `min_by_key(...).unwrap()` unwraps `None`) exactly when the
original text has fewer than `max(N − 24, 1)` words, where `N` is the
flattened accepted-paragraph word count. -/
lemma ntwCore_none_iff (accepted : List String) (orig : String) :
    ntwCore accepted orig = none ↔
      (splitWsStr orig).length < max ((llmWordsOf accepted).length - 24) 1 := by
  by_cases ho : splitWsStr orig = []
  · rw [ntwCore_nilOrig accepted orig ho, ho]
    simp
  · have hlen : 0 < (splitWsStr orig).length := List.length_pos.mpr ho
    rw [ntwCore_eq accepted orig ho]
    rw [Option.map_eq_none']
    rw [minByFirst_nil_iff]
    constructor
    · intro hnil
      have := congrArg List.length hnil
      rw [specWindow_length] at this
      simp at this
      omega
    · intro hlt
      have hl : (specWindow accepted orig).length = 0 := by
        rw [specWindow_length]
        omega
      exact List.length_eq_zero.mp hl

set_option maxRecDepth 8000 in
lemma c10_sectionLoop_panic :
    sectionLoop id ["x"] [] emptyCache = .error .reconcilerPanic := rfl

set_option maxRecDepth 8000 in
lemma c10_createTitles_panic :
    createTitles id "cfg" c10oracle 2 ["a", "b"] emptyCache
      = .error .reconcilerPanic := rfl

/-- Claim C10 (corrected), amended: the Reconciler's cache-miss
computation panics exactly when the original text has fewer than
`max(N − 24, 1)` words (see `ntwCore_none_iff`) — in particular it
always panics on a zero-word text, though one word is not in general
enough; and the zero-word case is reachable from the Section Assembler's
per-section loop, which calls the Reconciler on the still-unconsumed
summary-word stream for every section, including after the stream is
exhausted: the loop panics on an empty stream with a section pending,
and a full `create_titles` run whose first section consumes the entire
summary stream ends in the Reconciler's panic on the second section. -/
theorem reconcilerPanic_iff (accepted : List String) (orig : String) :
    (ntwCore accepted orig = none ↔
      (splitWsStr orig).length < max ((llmWordsOf accepted).length - 24) 1)
    ∧ sectionLoop id ["x"] [] emptyCache = .error .reconcilerPanic
    ∧ createTitles id "cfg" c10oracle 2 ["a", "b"] emptyCache
      = .error .reconcilerPanic :=
  ⟨ntwCore_none_iff accepted orig, c10_sectionLoop_panic, c10_createTitles_panic⟩

/-- Claim C10, counterexample to the claim as stated: 27 accepted words
against a two-word original text — the original text contains at least
one word, yet the Reconciler still panics because the scan window is
empty. -/
theorem reconcilerPanic_counterexample :
    splitWsStr "y z" ≠ [] ∧
    ntwCore ["a a a a a a a a a a a a a a a a a a a a a a a a a a a"] "y z" = none := by
  exact ⟨by decide, by decide⟩

/-! ## Helper lemmas: the segmentation retry loop -/

lemma getParagraphs_miss (h : String → String) (config : String) (oracle : Oracle)
    (text : String) (c : Cache) (hmiss : c (gpKey h config text) = none) :
    getParagraphs h config oracle text c
      = .ok (parseParagraphs (gpGo oracle text 9 1 []).1,
             cachePut c (gpKey h config text)
               (.strs (parseParagraphs (gpGo oracle text 9 1 []).1)),
             (gpGo oracle text 9 1 []).2) := by
  simp only [getParagraphs]
  rw [hmiss]

lemma gpGo_all_over (oracle : Oracle) (text : String) :
    ∀ (left rn : Nat) (retries : List (Nat × String)),
    (∀ k, rn ≤ k → k ≤ rn + left →
      editDistance (normalizeWs (oracle (trimStr STRUCTIFY_PROMPT) text k)) text > 64) →
    gpGo oracle text left rn retries
      = (match minByFirst (fun r => r.1) (retries ++ (List.range' rn (left + 1)).map
            (fun k => (editDistance (normalizeWs (oracle (trimStr STRUCTIFY_PROMPT) text k)) text,
                       oracle (trimStr STRUCTIFY_PROMPT) text k))) with
         | some best => (best.2, rn + left)
         | none => ("", rn + left)) := by
  intro left
  induction left with
  | zero =>
    intro rn retries hover
    have hd := hover rn (Nat.le_refl rn) (by omega)
    simp only [gpGo]
    rw [if_pos hd]
    simp
  | succ left' ih =>
    intro rn retries hover
    have hd := hover rn (Nat.le_refl rn) (by omega)
    have hstep : gpGo oracle text (left' + 1) rn retries
        = gpGo oracle text left' (rn + 1)
            (retries ++ [(editDistance (normalizeWs (oracle (trimStr STRUCTIFY_PROMPT) text rn)) text,
                          oracle (trimStr STRUCTIFY_PROMPT) text rn)]) := by
      simp only [gpGo]
      rw [if_pos hd]
    rw [hstep, ih (rn + 1) _ (fun k hk1 hk2 => hover k (by omega) (by omega))]
    have hlist : (retries ++ [(editDistance (normalizeWs (oracle (trimStr STRUCTIFY_PROMPT) text rn)) text,
            oracle (trimStr STRUCTIFY_PROMPT) text rn)])
          ++ (List.range' (rn + 1) (left' + 1)).map
            (fun k => (editDistance (normalizeWs (oracle (trimStr STRUCTIFY_PROMPT) text k)) text,
                       oracle (trimStr STRUCTIFY_PROMPT) text k))
        = retries ++ (List.range' rn (left' + 1 + 1)).map
            (fun k => (editDistance (normalizeWs (oracle (trimStr STRUCTIFY_PROMPT) text k)) text,
                       oracle (trimStr STRUCTIFY_PROMPT) text k)) := by
      rw [List.range'_succ, List.map_cons, List.append_assoc]
      rfl
    rw [hlist]
    have harith : rn + 1 + left' = rn + (left' + 1) := by omega
    rw [harith]

lemma gpGo_accepts (oracle : Oracle) (text : String) :
    ∀ (left rn : Nat) (retries : List (Nat × String)) (k : Nat),
    rn ≤ k → k ≤ rn + left →
    (∀ j, rn ≤ j → j < k →
      editDistance (normalizeWs (oracle (trimStr STRUCTIFY_PROMPT) text j)) text > 64) →
    editDistance (normalizeWs (oracle (trimStr STRUCTIFY_PROMPT) text k)) text ≤ 64 →
    gpGo oracle text left rn retries = (oracle (trimStr STRUCTIFY_PROMPT) text k, k) := by
  intro left
  induction left with
  | zero =>
    intro rn retries k hk1 hk2 hbefore hgood
    have hkrn : k = rn := by omega
    subst hkrn
    simp only [gpGo]
    rw [if_neg (by omega)]
  | succ left' ih =>
    intro rn retries k hk1 hk2 hbefore hgood
    by_cases hkrn : k = rn
    · subst hkrn
      simp only [gpGo]
      rw [if_neg (by omega)]
    · have hd := hbefore rn (Nat.le_refl rn) (by omega)
      have hstep : gpGo oracle text (left' + 1) rn retries
          = gpGo oracle text left' (rn + 1)
              (retries ++ [(editDistance (normalizeWs (oracle (trimStr STRUCTIFY_PROMPT) text rn)) text,
                            oracle (trimStr STRUCTIFY_PROMPT) text rn)]) := by
        simp only [gpGo]
        rw [if_pos hd]
      rw [hstep]
      exact ih (rn + 1) _ k (by omega) (by omega)
        (fun j hj1 hj2 => hbefore j (by omega) hj2) hgood

/-! ## C2: fidelity retry with best-effort fallback -/

/-- Claim C2 (confirmed).  On a cache miss, if every one of the 10
attempts' normalized responses has edit distance above 64 from the chunk
text, the Segmentation Call makes exactly 10 chat attempts, then accepts
the attempt whose normalized response has minimal distance (first on
ties), parses it into paragraphs, caches the list, and returns
successfully; and whenever an attempt's distance is at most 64 (all
earlier attempts being above 64), that attempt is accepted immediately
with no further attempts. -/
theorem segmentation_retry_fallback (h : String → String) (config : String)
    (oracle : Oracle) (text : String) (c : Cache)
    (hmiss : c (gpKey h config text) = none) :
    ((∀ k, 1 ≤ k → k ≤ 10 →
        editDistance (normalizeWs (oracle (trimStr STRUCTIFY_PROMPT) text k)) text > 64) →
      ∃ best, minByFirst (fun r => r.1) ((List.range' 1 10).map
          (fun k => (editDistance (normalizeWs (oracle (trimStr STRUCTIFY_PROMPT) text k)) text,
                     oracle (trimStr STRUCTIFY_PROMPT) text k))) = some best ∧
        getParagraphs h config oracle text c
          = .ok (parseParagraphs best.2,
                 cachePut c (gpKey h config text) (.strs (parseParagraphs best.2)), 10)) ∧
    (∀ k, 1 ≤ k → k ≤ 10 →
      (∀ j, 1 ≤ j → j < k →
        editDistance (normalizeWs (oracle (trimStr STRUCTIFY_PROMPT) text j)) text > 64) →
      editDistance (normalizeWs (oracle (trimStr STRUCTIFY_PROMPT) text k)) text ≤ 64 →
      getParagraphs h config oracle text c
        = .ok (parseParagraphs (oracle (trimStr STRUCTIFY_PROMPT) text k),
               cachePut c (gpKey h config text)
                 (.strs (parseParagraphs (oracle (trimStr STRUCTIFY_PROMPT) text k))), k)) := by
  constructor
  · intro hover
    have hgo := gpGo_all_over oracle text 9 1 [] (fun k hk1 hk2 => hover k hk1 (by omega))
    rw [List.nil_append] at hgo
    have hgo' : gpGo oracle text 9 1 []
        = (match minByFirst (fun r => r.1) ((List.range' 1 10).map
              (fun k => (editDistance (normalizeWs (oracle (trimStr STRUCTIFY_PROMPT) text k)) text,
                         oracle (trimStr STRUCTIFY_PROMPT) text k))) with
           | some best => (best.2, 10)
           | none => ("", 10)) := hgo
    cases hmin : minByFirst (fun r => r.1) ((List.range' 1 10).map
        (fun k => (editDistance (normalizeWs (oracle (trimStr STRUCTIFY_PROMPT) text k)) text,
                   oracle (trimStr STRUCTIFY_PROMPT) text k))) with
    | none =>
      have := (minByFirst_nil_iff _ _).mp hmin
      simp [List.range'_succ] at this
    | some best =>
      rw [hmin] at hgo'
      refine ⟨best, rfl, ?_⟩
      rw [getParagraphs_miss h config oracle text c hmiss, hgo']
  · intro k hk1 hk2 hbefore hgood
    have hgo := gpGo_accepts oracle text 9 1 [] k hk1 (by omega)
      (fun j hj1 hj2 => hbefore j hj1 hj2) hgood
    rw [getParagraphs_miss h config oracle text c hmiss, hgo]

/-- Witness for `segmentation_retry_fallback`: an oracle that always
answers with the empty string against a 65-character chunk text sits at
distance 65 on every attempt, so after exactly 10 attempts the
(identical) minimum-distance response is accepted, parsed to an empty
paragraph list, and cached. -/
theorem segmentation_retry_fallback_witness :
    getParagraphs id "cfg" (fun _ _ _ => "") "aaaaaaaaaaaaaaaaaaaaaaaaaaaaaaaaaaaaaaaaaaaaaaaaaaaaaaaaaaaaaaaaa" emptyCache
      = .ok ([], cachePut emptyCache (gpKey id "cfg" "aaaaaaaaaaaaaaaaaaaaaaaaaaaaaaaaaaaaaaaaaaaaaaaaaaaaaaaaaaaaaaaaa") (.strs []), 10) := by
  obtain ⟨best, hbest, heq⟩ :=
    (segmentation_retry_fallback id "cfg" (fun _ _ _ => "") "aaaaaaaaaaaaaaaaaaaaaaaaaaaaaaaaaaaaaaaaaaaaaaaaaaaaaaaaaaaaaaaaa" emptyCache rfl).1
      (fun k _ _ => by decide)
  have hconc : minByFirst (fun (r : Nat × String) => r.1) ((List.range' 1 10).map
      (fun k => (editDistance (normalizeWs ((fun _ _ _ => "") (trimStr STRUCTIFY_PROMPT) "aaaaaaaaaaaaaaaaaaaaaaaaaaaaaaaaaaaaaaaaaaaaaaaaaaaaaaaaaaaaaaaaa" k)) "aaaaaaaaaaaaaaaaaaaaaaaaaaaaaaaaaaaaaaaaaaaaaaaaaaaaaaaaaaaaaaaaa",
        (fun _ _ _ => "") (trimStr STRUCTIFY_PROMPT) "aaaaaaaaaaaaaaaaaaaaaaaaaaaaaaaaaaaaaaaaaaaaaaaaaaaaaaaaaaaaaaaaa" k))) = some (65, "") := by
    decide
  have hbest' : best = (65, "") := Option.some.inj (hbest.symm.trans hconc)
  rw [hbest'] at heq
  exact heq

/-! ## Helper lemmas: cache growth and cached-call replay -/

/-- Cache extension: every entry of `c` is still present in `c'`. -/
def cacheLe (c c' : Cache) : Prop := ∀ k v, c k = some v → c' k = some v

lemma cacheLe_refl (c : Cache) : cacheLe c c := fun _ _ hv => hv

lemma cacheLe_trans {a b c : Cache} (hab : cacheLe a b) (hbc : cacheLe b c) :
    cacheLe a c := fun k v hv => hbc k v (hab k v hv)

lemma cachePut_le (c : Cache) (k : String) (v : CacheVal) (hk : c k = none) :
    cacheLe c (cachePut c k v) := by
  intro k' v' hv'
  unfold cachePut
  by_cases hkk : k' = k
  · subst hkk
    rw [hk] at hv'
    exact Option.noConfusion hv'
  · rw [if_neg hkk]
    exact hv'

lemma cachePut_get (c : Cache) (k : String) (v : CacheVal) :
    (cachePut c k v) k = some v := by
  unfold cachePut
  rw [if_pos rfl]

lemma getParagraphs_post (h : String → String) (config : String) (oracle : Oracle)
    (text : String) (c : Cache) (pars : List String) (c' : Cache) (n : Nat)
    (hok : getParagraphs h config oracle text c = .ok (pars, c', n)) :
    cacheLe c c' ∧ c' (gpKey h config text) = some (.strs pars) := by
  simp only [getParagraphs] at hok
  cases hcc : c (gpKey h config text) with
  | none =>
    rw [hcc] at hok
    simp only [Except.ok.injEq, Prod.mk.injEq] at hok
    obtain ⟨hp, hc, -⟩ := hok
    subst hp
    rw [← hc]
    exact ⟨cachePut_le c _ _ hcc, cachePut_get c _ _⟩
  | some v =>
    cases v with
    | str s =>
      rw [hcc] at hok
      exact Except.noConfusion hok
    | strs p =>
      rw [hcc] at hok
      simp only [Except.ok.injEq, Prod.mk.injEq] at hok
      obtain ⟨hp, hc, -⟩ := hok
      subst hp
      rw [← hc]
      exact ⟨cacheLe_refl c, hcc⟩
    | boundary b =>
      rw [hcc] at hok
      exact Except.noConfusion hok

lemma getParagraphs_hit (h : String → String) (config : String) (oracle : Oracle)
    (text : String) (c : Cache) (pars : List String)
    (hcc : c (gpKey h config text) = some (.strs pars)) :
    getParagraphs h config oracle text c = .ok (pars, c, 0) := by
  simp only [getParagraphs, hcc]

lemma getNextTextWords_post (h : String → String) (accepted : List String)
    (orig : String) (c : Cache) (r : NextRes) (c' : Cache)
    (hok : getNextTextWords h accepted orig c = .ok (r, c')) :
    cacheLe c c' ∧ c' (ntwKey h accepted orig) = some (.boundary r) := by
  simp only [getNextTextWords] at hok
  cases hcc : c (ntwKey h accepted orig) with
  | none =>
    rw [hcc] at hok
    cases hcore : ntwCore accepted orig with
    | none =>
      rw [hcore] at hok
      exact Except.noConfusion hok
    | some r0 =>
      rw [hcore] at hok
      simp only [Except.ok.injEq, Prod.mk.injEq] at hok
      obtain ⟨hr, hc⟩ := hok
      subst hr
      rw [← hc]
      exact ⟨cachePut_le c _ _ hcc, cachePut_get c _ _⟩
  | some v =>
    cases v with
    | str s =>
      rw [hcc] at hok
      exact Except.noConfusion hok
    | strs p =>
      rw [hcc] at hok
      exact Except.noConfusion hok
    | boundary b =>
      rw [hcc] at hok
      simp only [Except.ok.injEq, Prod.mk.injEq] at hok
      obtain ⟨hr, hc⟩ := hok
      subst hr
      rw [← hc]
      exact ⟨cacheLe_refl c, hcc⟩

lemma getNextTextWords_hit (h : String → String) (accepted : List String)
    (orig : String) (c : Cache) (r : NextRes)
    (hcc : c (ntwKey h accepted orig) = some (.boundary r)) :
    getNextTextWords h accepted orig c = .ok (r, c) := by
  simp only [getNextTextWords, hcc]

lemma wtpLoop_step (h : String → String) (config : String) (oracle : Oracle)
    (fuel : Nat) (ws acc : List String) (c : Cache) (pars : List String)
    (c1 : Cache) (n1 : Nat)
    (hgp : getParagraphs h config oracle (joinWords (ws.take CHUNK_WORDS_THRESHOLD)) c
      = .ok (pars, c1, n1)) :
    wtpLoop h config oracle (fuel + 1) ws acc c
      = if lastChunkFlag ws then .ok (acc ++ pars, c1, n1, 1)
        else if pars.length < 2 then .error .insufficientSegmentation
        else
          match getNextTextWords h pars.dropLast (joinWords ws) c1 with
          | .error e => .error e
          | .ok (nr, c2) =>
            match wtpLoop h config oracle fuel nr.words (acc ++ pars.dropLast) c2 with
            | .error e => .error e
            | .ok (res, c3, n2, iters) => .ok (res, c3, n1 + n2, iters + 1) := by
  simp only [wtpLoop, hgp]

lemma wtpLoop_replay (h : String → String) (config : String) (oracle : Oracle) :
    ∀ (fuel : Nat) (ws acc : List String) (c : Cache) (res : List String)
      (cF : Cache) (n it : Nat),
    wtpLoop h config oracle fuel ws acc c = .ok (res, cF, n, it) →
    cacheLe c cF ∧
    ∀ oracle', wtpLoop h config oracle' fuel ws acc cF = .ok (res, cF, 0, it) := by
  intro fuel
  induction fuel with
  | zero =>
    intro ws acc c res cF n it hok
    exact Except.noConfusion hok
  | succ fuel ih =>
    intro ws acc c res cF n it hok
    cases hgp : getParagraphs h config oracle (joinWords (ws.take CHUNK_WORDS_THRESHOLD)) c with
    | error e =>
      simp only [wtpLoop, hgp] at hok
      exact Except.noConfusion hok
    | ok v =>
      obtain ⟨pars, c1, n1⟩ := v
      rw [wtpLoop_step h config oracle fuel ws acc c pars c1 n1 hgp] at hok
      obtain ⟨hle1, hentry1⟩ := getParagraphs_post h config oracle _ c pars c1 n1 hgp
      by_cases hlast : lastChunkFlag ws
      · rw [if_pos hlast] at hok
        simp only [Except.ok.injEq, Prod.mk.injEq] at hok
        obtain ⟨hres, hcF, -, hit⟩ := hok
        subst hres hit
        rw [← hcF]
        refine ⟨hle1, ?_⟩
        intro oracle'
        rw [wtpLoop_step h config oracle' fuel ws acc c1 pars c1 0
          (getParagraphs_hit h config oracle' _ c1 pars hentry1), if_pos hlast]
      · rw [if_neg hlast] at hok
        by_cases hcnt : pars.length < 2
        · rw [if_pos hcnt] at hok
          exact Except.noConfusion hok
        · rw [if_neg hcnt] at hok
          cases hntw : getNextTextWords h pars.dropLast (joinWords ws) c1 with
          | error e =>
            simp only [hntw] at hok
            exact Except.noConfusion hok
          | ok v2 =>
            obtain ⟨nr, c2⟩ := v2
            simp only [hntw] at hok
            obtain ⟨hle2, hentry2⟩ := getNextTextWords_post h pars.dropLast _ c1 nr c2 hntw
            cases hrec : wtpLoop h config oracle fuel nr.words (acc ++ pars.dropLast) c2 with
            | error e =>
              simp only [hrec] at hok
              exact Except.noConfusion hok
            | ok v3 =>
              obtain ⟨res', c3, n2, it'⟩ := v3
              simp only [hrec] at hok
              simp only [Except.ok.injEq, Prod.mk.injEq] at hok
              obtain ⟨hres, hcF, -, hit⟩ := hok
              subst hres hit
              obtain ⟨hle3, hreplay⟩ := ih nr.words (acc ++ pars.dropLast) c2 res' c3 n2 it' hrec
              rw [← hcF]
              refine ⟨cacheLe_trans hle1 (cacheLe_trans hle2 hle3), ?_⟩
              intro oracle'
              have hentry1' : c3 (gpKey h config (joinWords (ws.take CHUNK_WORDS_THRESHOLD)))
                  = some (.strs pars) := hle3 _ _ (hle2 _ _ hentry1)
              have hentry2' : c3 (ntwKey h pars.dropLast (joinWords ws))
                  = some (.boundary nr) := hle3 _ _ hentry2
              rw [wtpLoop_step h config oracle' fuel ws acc c3 pars c3 0
                (getParagraphs_hit h config oracle' _ c3 pars hentry1'), if_neg hlast,
                if_neg hcnt]
              simp only [getNextTextWords_hit h pars.dropLast _ c3 nr hentry2',
                hreplay oracle']

/-! ## C4: idempotent replay against a populated cache -/

/-- Claim C4 (confirmed).  Re-running the Chunk Driver on an identical
input word stream against the cache populated by a previous completed
run — under any oracle at all, since no chat call is issued — returns
the identical paragraph sequence, leaves the cache unchanged, issues
zero chat attempts (every `get_paragraphs` and `get_next_text_words`
invocation hits the cache under the same key), and performs the same
number of iterations. -/
theorem driver_idempotent (h : String → String) (config : String) (oracle : Oracle)
    (fuel : Nat) (words : List String) (c : Cache) (res : List String)
    (cF : Cache) (n it : Nat)
    (hok : wordsToParagraphs h config oracle fuel words c = .ok (res, cF, n, it)) :
    ∀ oracle', wordsToParagraphs h config oracle' fuel words cF = .ok (res, cF, 0, it) := by
  intro oracle'
  unfold wordsToParagraphs at hok ⊢
  by_cases hlen : words.length < 1
  · rw [if_pos hlen] at hok
    exact Except.noConfusion hok
  · rw [if_neg hlen] at hok
    rw [if_neg hlen]
    exact (wtpLoop_replay h config oracle fuel words [] c res cF n it hok).2 oracle'

/-- Witness for `driver_idempotent`: the two-word document `["a", "b"]`
is segmented once (one chat attempt) by the faithful oracle; the re-run
against the populated cache returns the same paragraphs with zero chat
attempts, under an oracle that answers garbage. -/
theorem driver_idempotent_witness :
    wordsToParagraphs id "cfg" (fun _ _ _ => "IGNORED") 2 ["a", "b"] w4cache
      = .ok (["a b"], w4cache, 0, 1) := by
  have h1 : wordsToParagraphs id "cfg" w4oracle1 2 ["a", "b"] emptyCache
      = .ok (["a b"], w4cache, 1, 1) := rfl
  exact driver_idempotent id "cfg" w4oracle1 2 ["a", "b"] emptyCache
    ["a b"] w4cache 1 1 h1 (fun _ _ _ => "IGNORED")

/-! ## Helper lemmas: the all-"a" toolkit -/

lemma strData_push (s : String) (c : Char) : (s.push c).data = s.data ++ [c] := by
  cases s
  rfl

lemma strAppend_left_cancel (A : String) {x y : String} (hxy : A ++ x = A ++ y) :
    x = y := by
  have hd := congrArg String.data hxy
  simp only [strData_append] at hd
  exact strExt (List.append_cancel_left hd)

lemma strNe_of_length {s t : String} (hlen : s.length ≠ t.length) : s ≠ t := by
  intro h
  exact hlen (congrArg String.length h)

lemma aWords_succ (n : Nat) : aWords (n + 1) = pushWord (aWords n) "a" := by
  unfold aWords joinWords
  rw [List.replicate_succ' n "a", List.foldl_append]
  rfl

lemma aWords_isEmpty_false (n : Nat) : (aWords (n + 1)).isEmpty = false := by
  rw [aWords_succ]
  by_cases he : (pushWord (aWords n) "a").isEmpty = true
  · exfalso
    have hempty := (String.isEmpty_iff _).mp he
    have hd := congrArg String.data hempty
    unfold pushWord at hd
    rw [strData_append] at hd
    simp at hd
  · exact Bool.eq_false_iff.mpr (fun hcon => he hcon)

lemma aWords_length (n : Nat) : (aWords (n + 1)).length = 2 * n + 1 := by
  induction n with
  | zero => rfl
  | succ m ih =>
    rw [aWords_succ (m + 1)]
    unfold pushWord
    rw [aWords_isEmpty_false m, if_neg (by simp)]
    rw [String.length_append]
    have hp : ((aWords (m + 1)).push ' ').length = (aWords (m + 1)).length + 1 := by
      simp [String.length_push]
    rw [hp, ih]
    simp [String.length]
    omega

lemma aWords_data_succ (n : Nat) :
    (aWords (n + 2)).data = (aWords (n + 1)).data ++ [' ', 'a'] := by
  rw [aWords_succ (n + 1)]
  unfold pushWord
  rw [aWords_isEmpty_false n, if_neg (by simp)]
  rw [strData_append, strData_push]
  simp

lemma go_append_spaceA (cs : List Char) :
    splitWsGo (cs ++ [' ', 'a'])
      = ((splitWsGo cs).1, (splitWsGo cs).2 ++ [['a']]) := by
  induction cs with
  | nil => rfl
  | cons c cs' ih =>
    rw [List.cons_append]
    show splitWsGo (c :: (cs' ++ [' ', 'a'])) = _
    by_cases hws : isWsChar c
    · simp only [splitWsGo, ih, if_pos hws]
      cases hgo : (splitWsGo cs').1 with
      | nil => simp
      | cons a l => simp
    · simp only [splitWsGo, ih, if_neg hws]

lemma splitWsChars_append_spaceA (cs : List Char) :
    splitWsChars (cs ++ [' ', 'a']) = splitWsChars cs ++ [['a']] := by
  unfold splitWsChars
  rw [go_append_spaceA]
  cases hgo : (splitWsGo cs).1 with
  | nil => simp [hgo]
  | cons a l => simp [hgo]

lemma splitWs_aWords : ∀ n, splitWsStr (aWords n) = List.replicate n "a" := by
  intro n
  induction n with
  | zero => rfl
  | succ m ih =>
    cases m with
    | zero => rfl
    | succ m' =>
      unfold splitWsStr
      rw [aWords_data_succ m', splitWsChars_append_spaceA]
      rw [List.map_append]
      have ihc : (splitWsChars (aWords (m' + 1)).data).map String.mk
          = List.replicate (m' + 1) "a" := ih
      rw [ihc]
      have hmap : List.map String.mk [['a']] = ["a"] := rfl
      rw [hmap, ← List.replicate_succ']

lemma filter_nonempty_replicate (n : Nat) :
    (List.replicate n "a").filter (fun w => !w.isEmpty) = List.replicate n "a" := by
  induction n with
  | zero => rfl
  | succ m ih =>
    rw [List.replicate_succ, List.filter_cons]
    simp only [ih]
    rfl

lemma llmWordsOf_single (x : String) :
    llmWordsOf [x] = (splitWsStr x).filter (fun w => !w.isEmpty) := by
  unfold llmWordsOf
  simp

lemma llmWordsOf_single_aWords (n : Nat) :
    llmWordsOf [aWords n] = List.replicate n "a" := by
  rw [llmWordsOf_single, splitWs_aWords, filter_nonempty_replicate]

/-! ## Helper lemmas: cache key distinctness -/

lemma gpKeyStr_take5 (config text : String) :
    (gpKeyStr config text).data.take 5 = ['g', 'e', 't', '_', 'p'] := by
  unfold gpKeyStr
  simp only [strData_append]
  have hL : 5 ≤ ("get_paragraphs:\n".data).length := by decide
  rw [List.take_append_of_le_length (by simp only [List.length_append, List.length_cons, List.length_nil]; omega),
    List.take_append_of_le_length (by simp only [List.length_append, List.length_cons, List.length_nil]; omega),
    List.take_append_of_le_length (by simp only [List.length_append, List.length_cons, List.length_nil]; omega),
    List.take_append_of_le_length (by simp only [List.length_append, List.length_cons, List.length_nil]; omega),
    List.take_append_of_le_length hL]
  decide

lemma ntwKeyStr_take5 (accepted : List String) (orig : String) :
    (ntwKeyStr accepted orig).data.take 5 = ['g', 'e', 't', '_', 'n'] := by
  unfold ntwKeyStr
  simp only [strData_append]
  have hL : 5 ≤ ("get_next_text_words:\n".data).length := by decide
  rw [List.take_append_of_le_length (by simp only [List.length_append, List.length_cons, List.length_nil]; omega),
    List.take_append_of_le_length (by simp only [List.length_append, List.length_cons, List.length_nil]; omega),
    List.take_append_of_le_length hL]
  decide

lemma ntwKey_ne_gpKey_id (accepted : List String) (orig config text : String) :
    ntwKey id accepted orig ≠ gpKey id config text := by
  intro h
  simp only [ntwKey, gpKey, id_eq] at h
  have h5 := congrArg (fun s => s.data.take 5) h
  simp only at h5
  rw [ntwKeyStr_take5, gpKeyStr_take5] at h5
  exact absurd h5 (by decide)

lemma gpKey_id_inj_text (config : String) {t t' : String}
    (h : gpKey id config t = gpKey id config t') : t = t' := by
  simp only [gpKey, id_eq] at h
  unfold gpKeyStr at h
  exact strAppend_left_cancel _ h

lemma ntwKey_id_inj_orig (accepted : List String) {o o' : String}
    (h : ntwKey id accepted o = ntwKey id accepted o') : o = o' := by
  simp only [ntwKey, id_eq] at h
  unfold ntwKeyStr at h
  exact strAppend_left_cancel _ h

lemma aWords_1000_ne_502 : aWords 1000 ≠ aWords 502 := by
  have h1 := aWords_length 999
  have h2 := aWords_length 501
  norm_num at h1 h2
  exact strNe_of_length (by omega)

/-! ## Helper lemmas: the reconciler-panic driver run (1001 words) -/

lemma replicate_words_ok (n : Nat) : ∀ w ∈ List.replicate n "a", w ≠ "" := by
  intro w hw
  rw [List.eq_of_mem_replicate hw]
  decide

lemma lastChunkFlag_replicate_false (n : Nat) (hn : CHUNK_WORDS_THRESHOLD < n) :
    lastChunkFlag (List.replicate n "a") = false := by
  have hiff := lastChunkFlag_le_iff (List.replicate n "a") (replicate_words_ok n)
  by_cases hb : lastChunkFlag (List.replicate n "a") = true
  · exfalso
    have hle := hiff.mp hb
    rw [List.length_replicate] at hle
    omega
  · exact Bool.eq_false_iff.mpr (fun hcon => hb hcon)

lemma lastChunkFlag_replicate_true (n : Nat) (hn : n ≤ CHUNK_WORDS_THRESHOLD) :
    lastChunkFlag (List.replicate n "a") = true := by
  apply (lastChunkFlag_le_iff (List.replicate n "a") (replicate_words_ok n)).mpr
  rw [List.length_replicate]
  exact hn

lemma chunk_of_replicate (m : Nat) (hm : CHUNK_WORDS_THRESHOLD ≤ m) :
    joinWords ((List.replicate m "a").take CHUNK_WORDS_THRESHOLD) = aWords 1000 := by
  rw [List.take_replicate]
  have hmin : min CHUNK_WORDS_THRESHOLD m = 1000 := by
    unfold CHUNK_WORDS_THRESHOLD at *
    omega
  rw [hmin]
  rfl

lemma getNextTextWords_miss_none (h : String → String) (a : List String) (o : String)
    (c : Cache) (hk : c (ntwKey h a o) = none) (hc : ntwCore a o = none) :
    getNextTextWords h a o c = .error .reconcilerPanic := by
  simp only [getNextTextWords, hk, hc]

lemma wordsToParagraphs_eq_loop (h : String → String) (config : String) (oracle : Oracle)
    (fuel : Nat) (ws : List String) (c : Cache) (hne : ¬ ws.length < 1) :
    wordsToParagraphs h config oracle fuel ws c = wtpLoop h config oracle fuel ws [] c := by
  simp only [wordsToParagraphs, if_neg hne]

lemma wtpLoop_ntw_error (h : String → String) (config : String) (oracle : Oracle)
    (fuel : Nat) (ws acc : List String) (c : Cache) (pars : List String) (c1 : Cache)
    (n1 : Nat) (e : DriverErr)
    (hgp : getParagraphs h config oracle (joinWords (ws.take CHUNK_WORDS_THRESHOLD)) c
      = .ok (pars, c1, n1))
    (hflag : lastChunkFlag ws = false)
    (hlen : ¬ pars.length < 2)
    (hntw : getNextTextWords h pars.dropLast (joinWords ws) c1 = .error e) :
    wtpLoop h config oracle (fuel + 1) ws acc c = .error e := by
  rw [wtpLoop_step h config oracle fuel ws acc c pars c1 n1 hgp]
  rw [hflag]
  rw [if_neg (by simp)]
  rw [if_neg hlen]
  simp only [hntw]

lemma aWords_def (n : Nat) : aWords n = joinWords (List.replicate n "a") := rfl

lemma c5_ntw_key_miss : c5cache (ntwKey id [aWords 1026] (aWords 1001)) = none := by
  unfold c5cache cachePut
  rw [if_neg (ntwKey_ne_gpKey_id _ _ _ _)]
  rfl

lemma c5_ntw_core_none : ntwCore [aWords 1026] (aWords 1001) = none := by
  apply (ntwCore_none_iff _ _).mpr
  rw [splitWs_aWords, llmWordsOf_single_aWords]
  rw [List.length_replicate, List.length_replicate]
  omega

lemma c5_run :
    wordsToParagraphs id "cfg" (fun _ u _ => u) 2 (List.replicate 1001 "a") c5cache
      = .error .reconcilerPanic := by
  have hne : ¬ (List.replicate 1001 "a").length < 1 := by
    rw [List.length_replicate]; omega
  rw [wordsToParagraphs_eq_loop id "cfg" _ 2 _ c5cache hne]
  have hchunk : joinWords ((List.replicate 1001 "a").take CHUNK_WORDS_THRESHOLD)
      = aWords 1000 := chunk_of_replicate 1001 (by decide)
  have hgp : getParagraphs id "cfg" (fun _ u _ => u)
      (joinWords ((List.replicate 1001 "a").take CHUNK_WORDS_THRESHOLD)) c5cache
      = .ok (c5pars, c5cache, 0) := by
    rw [hchunk]
    refine getParagraphs_hit id "cfg" _ (aWords 1000) c5cache c5pars ?_
    unfold c5cache
    exact cachePut_get _ _ _
  have hflag : lastChunkFlag (List.replicate 1001 "a") = false :=
    lastChunkFlag_replicate_false 1001 (by decide)
  have hdrop : c5pars.dropLast = [aWords 1026] := rfl
  refine wtpLoop_ntw_error id "cfg" _ 1 _ [] c5cache c5pars c5cache 0 .reconcilerPanic
    hgp hflag (by decide) ?_
  rw [hdrop, (aWords_def 1001).symm]
  exact getNextTextWords_miss_none id [aWords 1026] (aWords 1001) c5cache
    c5_ntw_key_miss c5_ntw_core_none

lemma getParagraphs_error_cacheDecode (h : String → String) (config : String)
    (oracle : Oracle) (text : String) (c : Cache) (e : DriverErr)
    (he : getParagraphs h config oracle text c = .error e) : e = .cacheDecode := by
  simp only [getParagraphs] at he
  cases hc : c (gpKey h config text) with
  | none => simp only [hc] at he; exact Except.noConfusion he
  | some v =>
    cases v with
    | str s => simp only [hc] at he; exact (Except.error.inj he).symm
    | strs p => simp only [hc] at he; exact Except.noConfusion he
    | boundary r => simp only [hc] at he; exact (Except.error.inj he).symm

lemma getNextTextWords_error_cases (h : String → String) (a : List String)
    (o : String) (c : Cache) (e : DriverErr)
    (he : getNextTextWords h a o c = .error e) :
    e = .cacheDecode ∨ e = .reconcilerPanic := by
  simp only [getNextTextWords] at he
  cases hc : c (ntwKey h a o) with
  | none =>
    cases hcore : ntwCore a o with
    | none => simp only [hc, hcore] at he; exact Or.inr (Except.error.inj he).symm
    | some r => simp only [hc, hcore] at he; exact Except.noConfusion he
  | some v =>
    cases v with
    | str s => simp only [hc] at he; exact Or.inl (Except.error.inj he).symm
    | strs p => simp only [hc] at he; exact Or.inl (Except.error.inj he).symm
    | boundary r => simp only [hc] at he; exact Except.noConfusion he

lemma wtpLoop_ne_emptyInput (h : String → String) (config : String) (oracle : Oracle) :
    ∀ (fuel : Nat) (ws acc : List String) (c : Cache),
    wtpLoop h config oracle fuel ws acc c ≠ .error .emptyInput := by
  intro fuel
  induction fuel with
  | zero =>
    intro ws acc c hcon
    simp only [wtpLoop] at hcon
    exact DriverErr.noConfusion (Except.error.inj hcon)
  | succ n ih =>
    intro ws acc c hcon
    simp only [wtpLoop] at hcon
    cases hgp : getParagraphs h config oracle (joinWords (ws.take CHUNK_WORDS_THRESHOLD)) c with
    | error e =>
      simp only [hgp] at hcon
      have := getParagraphs_error_cacheDecode h config oracle _ c e hgp
      subst this
      exact DriverErr.noConfusion (Except.error.inj hcon)
    | ok t =>
      obtain ⟨pars, c1, n1⟩ := t
      simp only [hgp] at hcon
      by_cases hf : lastChunkFlag ws = true
      · rw [if_pos hf] at hcon
        exact Except.noConfusion hcon
      · rw [if_neg hf] at hcon
        by_cases hl : pars.length < 2
        · rw [if_pos hl] at hcon
          exact DriverErr.noConfusion (Except.error.inj hcon)
        · rw [if_neg hl] at hcon
          cases hntw : getNextTextWords h pars.dropLast (joinWords ws) c1 with
          | error e =>
            simp only [hntw] at hcon
            rcases getNextTextWords_error_cases h _ _ c1 e hntw with h1 | h1 <;>
              (subst h1; exact DriverErr.noConfusion (Except.error.inj hcon))
          | ok t2 =>
            obtain ⟨nr, c2⟩ := t2
            simp only [hntw] at hcon
            cases hloop : wtpLoop h config oracle n nr.words (acc ++ pars.dropLast) c2 with
            | error e2 =>
              simp only [hloop] at hcon
              have he2 : e2 = .emptyInput := (Except.error.inj hcon)
              subst he2
              exact ih nr.words (acc ++ pars.dropLast) c2 hloop
            | ok t3 =>
              obtain ⟨res, c3, n2, it⟩ := t3
              simp only [hloop] at hcon
              exact Except.noConfusion hcon


/-! ## C5: error characterization of the Chunk Driver -/

/-- Claim C5 (corrected).  The Chunk Driver fails with `EmptyInput` exactly
when the input word stream is empty at the start (no partial output); given
a successful segmentation of the current chunk, on the final chunk it
appends all returned paragraphs and terminates successfully, on a non-final
chunk returning fewer than 2 paragraphs it fails with
`InsufficientSegmentation`, and on a non-final chunk with at least 2
paragraphs it appends all but the last returned paragraph and continues —
but, contrary to the claim's "if and only if", an error of the boundary
reconciler (or a cache-decode failure) is a further failure mode that
propagates out of the driver. -/
theorem driver_error_characterization (h : String → String) (config : String)
    (oracle : Oracle) (fuel : Nat) (ws : List String) (c : Cache) :
    (wordsToParagraphs h config oracle fuel ws c = .error .emptyInput ↔ ws = [])
    ∧ (∀ pars c1 n1,
        ws ≠ [] →
        getParagraphs h config oracle (joinWords (ws.take CHUNK_WORDS_THRESHOLD)) c
          = .ok (pars, c1, n1) →
        (lastChunkFlag ws = true →
          wordsToParagraphs h config oracle (fuel + 1) ws c = .ok (pars, c1, n1, 1))
        ∧ (lastChunkFlag ws = false → pars.length < 2 →
          wordsToParagraphs h config oracle (fuel + 1) ws c
            = .error .insufficientSegmentation)
        ∧ (lastChunkFlag ws = false → 2 ≤ pars.length →
          ∀ e, getNextTextWords h pars.dropLast (joinWords ws) c1 = .error e →
          wordsToParagraphs h config oracle (fuel + 1) ws c = .error e)
        ∧ (lastChunkFlag ws = false → 2 ≤ pars.length →
          ∀ nr c2 res c3 n2 it,
          getNextTextWords h pars.dropLast (joinWords ws) c1 = .ok (nr, c2) →
          wtpLoop h config oracle fuel nr.words pars.dropLast c2 = .ok (res, c3, n2, it) →
          wordsToParagraphs h config oracle (fuel + 1) ws c
            = .ok (res, c3, n1 + n2, it + 1))) := by
  have hlenne : ws ≠ [] → ¬ ws.length < 1 := by
    intro hne
    cases ws with
    | nil => exact absurd rfl hne
    | cons a t => simp
  constructor
  · constructor
    · intro he
      by_contra hne
      rw [wordsToParagraphs_eq_loop h config oracle fuel ws c (hlenne hne)] at he
      exact wtpLoop_ne_emptyInput h config oracle fuel ws [] c he
    · intro he
      subst he
      rfl
  · intro pars c1 n1 hne hgp
    have hlen : ¬ ws.length < 1 := hlenne hne
    refine ⟨?_, ?_, ?_, ?_⟩
    · intro hflag
      rw [wordsToParagraphs_eq_loop h config oracle (fuel + 1) ws c hlen,
        wtpLoop_step h config oracle fuel ws [] c pars c1 n1 hgp, if_pos hflag,
        List.nil_append]
    · intro hflag hl
      rw [wordsToParagraphs_eq_loop h config oracle (fuel + 1) ws c hlen,
        wtpLoop_step h config oracle fuel ws [] c pars c1 n1 hgp, hflag,
        if_neg (by simp), if_pos hl]
    · intro hflag hl e hntw
      rw [wordsToParagraphs_eq_loop h config oracle (fuel + 1) ws c hlen]
      exact wtpLoop_ntw_error h config oracle fuel ws [] c pars c1 n1 e hgp hflag
        (by omega) hntw
    · intro hflag hl nr c2 res c3 n2 it hntw hloop
      rw [wordsToParagraphs_eq_loop h config oracle (fuel + 1) ws c hlen,
        wtpLoop_step h config oracle fuel ws [] c pars c1 n1 hgp, hflag,
        if_neg (by simp), if_neg (by omega)]
      simp only [hntw, List.nil_append, hloop]

/-- Counterexample to claim C5 as stated: a 1001-word input (non-empty)
whose cached segmentation has 2 paragraphs (so neither of the claim's two
error conditions holds) still makes the driver fail, with the reconciler's
panic: the accepted paragraph has 1026 words, so the scan window over the
1001-word original text is empty. -/
theorem driver_error_counterexample :
    List.replicate 1001 "a" ≠ ([] : List String)
    ∧ c5cache (gpKey id "cfg" (aWords 1000)) = some (.strs c5pars)
    ∧ 2 ≤ c5pars.length
    ∧ wordsToParagraphs id "cfg" (fun _ u _ => u) 2 (List.replicate 1001 "a") c5cache
      = .error .reconcilerPanic := by
  refine ⟨?_, ?_, by decide, c5_run⟩
  · intro hcon
    have hlen := congrArg List.length hcon
    rw [List.length_replicate, List.length_nil] at hlen
    omega
  · unfold c5cache
    exact cachePut_get _ _ _

/-- Witness for `driver_error_characterization`: the empty stream yields
`EmptyInput`, and the two-word document `["a", "b"]` is a final chunk that
succeeds in one iteration. -/
theorem driver_error_characterization_witness :
    wordsToParagraphs id "cfg" w4oracle1 1 ([] : List String) emptyCache
      = .error .emptyInput
    ∧ wordsToParagraphs id "cfg" w4oracle1 1 ["a", "b"] emptyCache
      = .ok (["a b"], w4cache, 1, 1) := by
  constructor
  · exact (driver_error_characterization id "cfg" w4oracle1 1 [] emptyCache).1.mpr rfl
  · have hgp : getParagraphs id "cfg" w4oracle1
        (joinWords (["a", "b"].take CHUNK_WORDS_THRESHOLD)) emptyCache
        = .ok (["a b"], w4cache, 1) := rfl
    exact (((driver_error_characterization id "cfg" w4oracle1 0 ["a", "b"]
      emptyCache).2 ["a b"] w4cache 1 (by simp) hgp).1) rfl

lemma cachePut_get_ne (c : Cache) (k : String) (v : CacheVal) (k' : String)
    (h : ¬ k' = k) : (cachePut c k v) k' = c k' := by
  unfold cachePut
  rw [if_neg h]

lemma aWords_ne (m n : Nat) (hmn : m ≠ n) : aWords (m + 1) ≠ aWords (n + 1) := by
  intro hcon
  have h1 := aWords_length m
  have h2 := aWords_length n
  rw [hcon] at h1
  omega

lemma chunk_of_replicate_small (m : Nat) (hm : m ≤ CHUNK_WORDS_THRESHOLD) :
    joinWords ((List.replicate m "a").take CHUNK_WORDS_THRESHOLD) = aWords m := by
  rw [List.take_replicate]
  have hmin : min CHUNK_WORDS_THRESHOLD m = m := by
    unfold CHUNK_WORDS_THRESHOLD at *
    omega
  rw [hmin]
  exact (aWords_def m).symm

lemma wtpLoop_final (h : String → String) (config : String) (oracle : Oracle)
    (fuel : Nat) (ws acc : List String) (c : Cache) (pars : List String)
    (c1 : Cache) (n1 : Nat)
    (hgp : getParagraphs h config oracle (joinWords (ws.take CHUNK_WORDS_THRESHOLD)) c
      = .ok (pars, c1, n1))
    (hflag : lastChunkFlag ws = true) :
    wtpLoop h config oracle (fuel + 1) ws acc c = .ok (acc ++ pars, c1, n1, 1) := by
  rw [wtpLoop_step h config oracle fuel ws acc c pars c1 n1 hgp, if_pos hflag]

lemma wtpLoop_continue (h : String → String) (config : String) (oracle : Oracle)
    (fuel : Nat) (ws acc : List String) (c : Cache) (pars : List String)
    (c1 : Cache) (n1 : Nat) (nr : NextRes) (c2 : Cache)
    (hgp : getParagraphs h config oracle (joinWords (ws.take CHUNK_WORDS_THRESHOLD)) c
      = .ok (pars, c1, n1))
    (hflag : lastChunkFlag ws = false)
    (hlen : ¬ pars.length < 2)
    (hntw : getNextTextWords h pars.dropLast (joinWords ws) c1 = .ok (nr, c2))
    (res : List String) (c3 : Cache) (n2 iters : Nat)
    (hloop : wtpLoop h config oracle fuel nr.words (acc ++ pars.dropLast) c2
      = .ok (res, c3, n2, iters)) :
    wtpLoop h config oracle (fuel + 1) ws acc c
      = .ok (res, c3, n1 + n2, iters + 1) := by
  rw [wtpLoop_step h config oracle fuel ws acc c pars c1 n1 hgp, hflag]
  rw [if_neg (by simp), if_neg hlen]
  simp only [hntw, hloop]

/-! ## C8: iteration count on a 2500-word document -/

lemma c8gp1 : c8cache (gpKey id "cfg" (aWords 1000)) = some (.strs c8pars) := by
  unfold c8cache
  rw [cachePut_get_ne _ _ _ _ (by
    intro hcon
    exact aWords_ne 999 24 (by omega) (gpKey_id_inj_text "cfg" hcon))]
  rw [cachePut_get_ne _ _ _ _ (by
    intro hcon
    exact ntwKey_ne_gpKey_id [aWords 2475] (aWords 2500) "cfg" (aWords 1000) hcon.symm)]
  exact cachePut_get _ _ _

lemma c8ntw1 : c8cache (ntwKey id [aWords 2475] (aWords 2500))
    = some (.boundary c8boundary) := by
  unfold c8cache
  rw [cachePut_get_ne _ _ _ _
    (ntwKey_ne_gpKey_id [aWords 2475] (aWords 2500) "cfg" (aWords 25))]
  exact cachePut_get _ _ _

lemma c8_run :
    wordsToParagraphs id "cfg" (fun _ u _ => u) 3 (List.replicate 2500 "a") c8cache
      = .ok ([aWords 2475, aWords 25], c8cache, 0, 2) := by
  have hgp2 : getParagraphs id "cfg" (fun _ u _ => u)
      (joinWords ((List.replicate 25 "a").take CHUNK_WORDS_THRESHOLD)) c8cache
      = .ok ([aWords 25], c8cache, 0) := by
    rw [chunk_of_replicate_small 25 (by decide)]
    refine getParagraphs_hit id "cfg" _ (aWords 25) c8cache [aWords 25] ?_
    unfold c8cache
    exact cachePut_get _ _ _
  have hloop2 : wtpLoop id "cfg" (fun _ u _ => u) 2 (List.replicate 25 "a")
      [aWords 2475] c8cache = .ok ([aWords 2475, aWords 25], c8cache, 0, 1) := by
    have hfin := wtpLoop_final id "cfg" (fun _ u _ => u) 1 (List.replicate 25 "a")
      [aWords 2475] c8cache [aWords 25] c8cache 0 hgp2
      (lastChunkFlag_replicate_true 25 (by decide))
    exact hfin
  have hgp1 : getParagraphs id "cfg" (fun _ u _ => u)
      (joinWords ((List.replicate 2500 "a").take CHUNK_WORDS_THRESHOLD)) c8cache
      = .ok (c8pars, c8cache, 0) := by
    rw [chunk_of_replicate 2500 (by decide)]
    exact getParagraphs_hit id "cfg" _ (aWords 1000) c8cache c8pars c8gp1
  have hntw1 : getNextTextWords id c8pars.dropLast
      (joinWords (List.replicate 2500 "a")) c8cache = .ok (c8boundary, c8cache) := by
    have hdrop : c8pars.dropLast = [aWords 2475] := rfl
    rw [hdrop, (aWords_def 2500).symm]
    exact getNextTextWords_hit id [aWords 2475] (aWords 2500) c8cache c8boundary c8ntw1
  have hne : ¬ (List.replicate 2500 "a").length < 1 := by
    rw [List.length_replicate]; omega
  rw [wordsToParagraphs_eq_loop id "cfg" _ 3 _ c8cache hne]
  exact wtpLoop_continue id "cfg" (fun _ u _ => u) 2 (List.replicate 2500 "a") []
    c8cache c8pars c8cache 0 c8boundary c8cache hgp1
    (lastChunkFlag_replicate_false 2500 (by decide)) (by decide) hntw1
    [aWords 2475, aWords 25] c8cache 0 1 hloop2

lemma wtpLoop_ok_one_le (h : String → String) (config : String) (oracle : Oracle)
    (fuel : Nat) (ws acc : List String) (c : Cache) (res : List String)
    (cF : Cache) (n it : Nat)
    (hok : wtpLoop h config oracle fuel ws acc c = .ok (res, cF, n, it)) :
    1 ≤ it := by
  cases fuel with
  | zero =>
    simp only [wtpLoop] at hok
    exact Except.noConfusion hok
  | succ m =>
    simp only [wtpLoop] at hok
    cases hgp : getParagraphs h config oracle (joinWords (ws.take CHUNK_WORDS_THRESHOLD)) c with
    | error e => simp only [hgp] at hok; exact Except.noConfusion hok
    | ok t =>
      obtain ⟨pars, c1, n1⟩ := t
      simp only [hgp] at hok
      by_cases hf : lastChunkFlag ws = true
      · rw [if_pos hf] at hok
        simp only [Except.ok.injEq, Prod.mk.injEq] at hok
        omega
      · rw [if_neg hf] at hok
        by_cases hl : pars.length < 2
        · rw [if_pos hl] at hok; exact Except.noConfusion hok
        · rw [if_neg hl] at hok
          cases hntw : getNextTextWords h pars.dropLast (joinWords ws) c1 with
          | error e => simp only [hntw] at hok; exact Except.noConfusion hok
          | ok t2 =>
            obtain ⟨nr, c2⟩ := t2
            simp only [hntw] at hok
            cases hloop : wtpLoop h config oracle m nr.words (acc ++ pars.dropLast) c2 with
            | error e2 => simp only [hloop] at hok; exact Except.noConfusion hok
            | ok t3 =>
              obtain ⟨res2, c3, n2, it2⟩ := t3
              simp only [hloop] at hok
              simp only [Except.ok.injEq, Prod.mk.injEq] at hok
              omega

/-- Claim C8 (corrected).  For a 2500-word stream of non-empty words, any
successful Chunk Driver run performs at least 2 iterations: the first chunk
is never the last (2500 > CHUNK_WORDS_THRESHOLD), so at least one
continuation precedes the final chunk.  The claim's bound of 3 does not
hold: a cached (or fallback-accepted) oversized segmentation lets a single
reconciliation skip 2475 words, so a run with exactly 2 iterations exists. -/
theorem driver_iterations (h : String → String) (config : String) (oracle : Oracle)
    (fuel : Nat) (ws : List String) (c : Cache) (res : List String) (cF : Cache)
    (n it : Nat)
    (hws : ∀ w ∈ ws, w ≠ "")
    (hlen : ws.length = 2500)
    (hok : wordsToParagraphs h config oracle fuel ws c = .ok (res, cF, n, it)) :
    2 ≤ it := by
  have hlt : ¬ ws.length < 1 := by omega
  rw [wordsToParagraphs_eq_loop h config oracle fuel ws c hlt] at hok
  cases fuel with
  | zero =>
    simp only [wtpLoop] at hok
    exact Except.noConfusion hok
  | succ m =>
    simp only [wtpLoop] at hok
    cases hgp : getParagraphs h config oracle (joinWords (ws.take CHUNK_WORDS_THRESHOLD)) c with
    | error e => simp only [hgp] at hok; exact Except.noConfusion hok
    | ok t =>
      obtain ⟨pars, c1, n1⟩ := t
      simp only [hgp] at hok
      have hflag : lastChunkFlag ws = false := by
        cases hb : lastChunkFlag ws with
        | false => rfl
        | true =>
          have hle := (lastChunkFlag_le_iff ws hws).mp hb
          unfold CHUNK_WORDS_THRESHOLD at hle
          omega
      rw [hflag] at hok
      rw [if_neg (by simp)] at hok
      by_cases hl : pars.length < 2
      · rw [if_pos hl] at hok; exact Except.noConfusion hok
      · rw [if_neg hl] at hok
        cases hntw : getNextTextWords h pars.dropLast (joinWords ws) c1 with
        | error e => simp only [hntw] at hok; exact Except.noConfusion hok
        | ok t2 =>
          obtain ⟨nr, c2⟩ := t2
          simp only [hntw] at hok
          cases hloop : wtpLoop h config oracle m nr.words ([] ++ pars.dropLast) c2 with
          | error e2 => simp only [hloop] at hok; exact Except.noConfusion hok
          | ok t3 =>
            obtain ⟨res2, c3, n2, it2⟩ := t3
            simp only [hloop] at hok
            have h1 := wtpLoop_ok_one_le h config oracle m nr.words
              ([] ++ pars.dropLast) c2 res2 c3 n2 it2 hloop
            simp only [Except.ok.injEq, Prod.mk.injEq] at hok
            omega

/-- Counterexample to claim C8 as stated: a 2500-word document whose cached
segmentation of the first chunk has an oversized first paragraph (2475
words, as the retry fallback can accept and cache) completes successfully
in exactly 2 iterations, not at least 3. -/
theorem driver_iterations_counterexample :
    (List.replicate 2500 "a").length = 2500
    ∧ wordsToParagraphs id "cfg" (fun _ u _ => u) 3 (List.replicate 2500 "a") c8cache
      = .ok ([aWords 2475, aWords 25], c8cache, 0, 2) :=
  ⟨by rw [List.length_replicate], c8_run⟩

/-- Witness for `driver_iterations`: the 2-iteration run on the 2500-word
document satisfies the bound. -/
theorem driver_iterations_witness :
    (∀ w ∈ List.replicate 2500 "a", w ≠ "")
    ∧ (List.replicate 2500 "a").length = 2500
    ∧ 2 ≤ 2 :=
  ⟨replicate_words_ok 2500, by rw [List.length_replicate],
    driver_iterations id "cfg" (fun _ u _ => u) 3 (List.replicate 2500 "a") c8cache
      [aWords 2475, aWords 25] c8cache 0 2 (replicate_words_ok 2500)
      (by rw [List.length_replicate]) c8_run⟩

lemma chunkRunsGo_flatten :
    ∀ (rest : List (Nat × Nat)) (s : Nat) (cur : List Nat),
    (chunkRunsGo s cur rest).flatten = cur.reverse ++ rest.map Prod.snd := by
  intro rest
  induction rest with
  | nil =>
    intro s cur
    simp [chunkRunsGo]
  | cons hd tl ih =>
    intro s cur
    obtain ⟨s', p⟩ := hd
    simp only [chunkRunsGo]
    by_cases hs : s' = s
    · rw [if_pos hs, ih]
      simp
    · rw [if_neg hs]
      simp only [List.flatten_cons, ih]
      simp

lemma chunkRuns_flatten (l : List (Nat × Nat)) :
    (chunkRuns l).flatten = l.map Prod.snd := by
  cases l with
  | nil => rfl
  | cons hd tl =>
    obtain ⟨s, p⟩ := hd
    simp only [chunkRuns, chunkRunsGo_flatten]
    simp

lemma btUpsert_mem_keys {β : Type} (f : β → β) (d : β) (k : Nat) :
    ∀ (al : List (Nat × β)) (a : Nat),
    a ∈ (btUpsert f d k al).map Prod.fst ↔ a = k ∨ a ∈ al.map Prod.fst := by
  intro al
  induction al with
  | nil =>
    intro a
    simp [btUpsert]
  | cons hd tl ih =>
    intro a
    obtain ⟨k', v⟩ := hd
    simp only [btUpsert]
    by_cases h1 : k < k'
    · rw [if_pos h1]
      simp [or_comm, or_assoc, or_left_comm]
    · rw [if_neg h1]
      by_cases h2 : k = k'
      · rw [if_pos h2]
        subst h2
        simp
      · rw [if_neg h2]
        simp only [List.map_cons, List.mem_cons, ih]
        tauto

lemma btUpsert_pairwise {β : Type} (f : β → β) (d : β) (k : Nat) :
    ∀ (al : List (Nat × β)),
    List.Pairwise (· < ·) (al.map Prod.fst) →
    List.Pairwise (· < ·) ((btUpsert f d k al).map Prod.fst) := by
  intro al
  induction al with
  | nil =>
    intro _
    simp [btUpsert]
  | cons hd tl ih =>
    intro hp
    obtain ⟨k', v⟩ := hd
    simp only [List.map_cons, List.pairwise_cons] at hp
    obtain ⟨hk', htl⟩ := hp
    simp only [btUpsert]
    by_cases h1 : k < k'
    · rw [if_pos h1]
      simp only [List.map_cons, List.pairwise_cons]
      refine ⟨?_, ?_, htl⟩
      · intro a ha
        simp only [List.mem_cons] at ha
        rcases ha with ha | ha
        · omega
        · have := hk' a ha
          omega
      · exact hk'
    · rw [if_neg h1]
      by_cases h2 : k = k'
      · rw [if_pos h2]
        simp only [List.map_cons, List.pairwise_cons]
        exact ⟨hk', htl⟩
      · rw [if_neg h2]
        simp only [List.map_cons, List.pairwise_cons]
        refine ⟨?_, ih htl⟩
        intro a ha
        rw [btUpsert_mem_keys] at ha
        rcases ha with ha | ha
        · omega
        · exact hk' a ha

lemma foldl_preserve {α σ : Type} {P : σ → Prop} (step : σ → α → σ)
    (hstep : ∀ s a, P s → P (step s a)) :
    ∀ (l : List α) (s : σ), P s → P (l.foldl step s) := by
  intro l
  induction l with
  | nil => intro s hs; exact hs
  | cons hd tl ih =>
    intro s hs
    exact ih (step s hd) (hstep s hd hs)

lemma buildParInSection_pairwise (spws : List (List (Nat × Nat))) :
    List.Pairwise (· < ·) ((buildParInSection spws).map Prod.fst) := by
  unfold buildParInSection
  have hstep : ∀ (m : List (Nat × (Nat × Nat))) (sp : Nat × List (Nat × Nat)),
      List.Pairwise (· < ·) (m.map Prod.fst) →
      List.Pairwise (· < ·)
        ((sp.2.foldl (fun m pw => btUpsertSec sp.1 pw.2 pw.1 m) m).map Prod.fst) := by
    intro m sp hm
    refine @foldl_preserve _ _ (fun m2 => List.Pairwise (· < ·) (m2.map Prod.fst))
      _ ?_ sp.2 m hm
    intro m' pw hm'
    exact btUpsert_pairwise _ _ _ m' hm'
  exact @foldl_preserve _ _ (fun m2 => List.Pairwise (· < ·) (m2.map Prod.fst))
    _ hstep spws.enum [] List.Pairwise.nil

lemma setInsert_mem (l : List Nat) (p : Nat) (x : Nat) :
    x ∈ setInsert l p ↔ x = p ∨ x ∈ l := by
  unfold setInsert
  by_cases hp : p ∈ l
  · rw [if_pos hp]
    constructor
    · intro h; exact Or.inr h
    · intro h; rcases h with h | h
      · subst h; exact hp
      · exact h
  · rw [if_neg hp]
    simp

lemma setInsert_nodup (l : List Nat) (p : Nat) (hl : l.Nodup) :
    (setInsert l p).Nodup := by
  unfold setInsert
  by_cases hp : p ∈ l
  · rw [if_pos hp]; exact hl
  · rw [if_neg hp]
    exact List.Nodup.cons hp hl

lemma gatherSection_spec (pars : List String) :
    ∀ (g : List Nat) (usage u : List Nat) (ts : List String),
    gatherSection pars usage g = some (u, ts) →
    (∀ x, x ∈ u ↔ x ∈ usage ∨ x ∈ g)
    ∧ (usage.Nodup → u.Nodup)
    ∧ (∀ x ∈ g, x < pars.length) := by
  intro g
  induction g with
  | nil =>
    intro usage u ts hg
    simp only [gatherSection] at hg
    obtain ⟨h1, h2⟩ := Prod.mk.injEq .. ▸ Option.some.inj hg
    subst h1
    refine ⟨by simp, fun hn => hn, by simp⟩
  | cons p ps ih =>
    intro usage u ts hg
    simp only [gatherSection] at hg
    cases hget : pars.get? p with
    | none => simp only [hget] at hg; exact Option.noConfusion hg
    | some t =>
      simp only [hget] at hg
      cases hrec : gatherSection pars (setInsert usage p) ps with
      | none => simp only [hrec] at hg; exact Option.noConfusion hg
      | some pr =>
        obtain ⟨u1, ts1⟩ := pr
        simp only [hrec] at hg
        obtain ⟨h1, h2⟩ := Prod.mk.injEq .. ▸ Option.some.inj hg
        subst h1
        obtain ⟨hmem, hnd, hbnd⟩ := ih (setInsert usage p) u1 ts1 hrec
        refine ⟨?_, ?_, ?_⟩
        · intro x
          rw [hmem x, setInsert_mem]
          simp only [List.mem_cons]
          tauto
        · intro hn
          exact hnd (setInsert_nodup usage p hn)
        · intro x hx
          simp only [List.mem_cons] at hx
          rcases hx with hx | hx
          · subst hx
            obtain ⟨hlt, -⟩ := List.get?_eq_some.mp hget
            exact hlt
          · exact hbnd x hx

lemma buildSections_spec (pars : List String) :
    ∀ (gs : List (List Nat)) (usage u : List Nat) (ts : List (List String)),
    buildSections pars gs usage = some (u, ts) →
    (∀ x, x ∈ u ↔ x ∈ usage ∨ x ∈ gs.flatten)
    ∧ (usage.Nodup → u.Nodup)
    ∧ (∀ x ∈ gs.flatten, x < pars.length) := by
  intro gs
  induction gs with
  | nil =>
    intro usage u ts hg
    simp only [buildSections] at hg
    obtain ⟨h1, h2⟩ := Prod.mk.injEq .. ▸ Option.some.inj hg
    subst h1
    refine ⟨by simp, fun hn => hn, by simp⟩
  | cons g gs' ih =>
    intro usage u ts hg
    simp only [buildSections] at hg
    cases hgat : gatherSection pars usage g with
    | none => simp only [hgat] at hg; exact Option.noConfusion hg
    | some pr1 =>
      obtain ⟨u1, ts1⟩ := pr1
      simp only [hgat] at hg
      cases hrec : buildSections pars gs' u1 with
      | none => simp only [hrec] at hg; exact Option.noConfusion hg
      | some pr2 =>
        obtain ⟨u2, ts2⟩ := pr2
        simp only [hrec] at hg
        obtain ⟨h1, h2⟩ := Prod.mk.injEq .. ▸ Option.some.inj hg
        subst h1
        obtain ⟨hmem1, hnd1, hbnd1⟩ := gatherSection_spec pars g usage u1 ts1 hgat
        obtain ⟨hmem2, hnd2, hbnd2⟩ := ih u1 u2 ts2 hrec
        refine ⟨?_, ?_, ?_⟩
        · intro x
          rw [hmem2 x]
          simp only [List.flatten_cons, List.mem_append]
          rw [hmem1 x]
          tauto
        · intro hn
          exact hnd2 (hnd1 hn)
        · intro x hx
          simp only [List.flatten_cons, List.mem_append] at hx
          rcases hx with hx | hx
          · exact hbnd1 x hx
          · exact hbnd2 x hx

lemma groups_flatten (spws : List (List (Nat × Nat))) :
    (chunkRuns ((buildParInSection spws).map (fun e => (e.2.1, e.1)))).flatten
      = (buildParInSection spws).map Prod.fst := by
  rw [chunkRuns_flatten, List.map_map]
  rfl

/-! ## C7: section totality of the Section Assembler -/

/-- Claim C7 (confirmed).  When `create_titles` completes successfully,
every paragraph index of the input paragraph list appears in exactly one
emitted section's paragraph list (once, counted over the concatenation of
the per-section index lists); and when the pipeline reaches the validation
with a usage set smaller than the paragraph count — i.e. some paragraph
index received no section assignment — it fails with the consistency
error instead of emitting output. -/
theorem sections_partition (h : String → String) (config : String)
    (oracle : Oracle) (fuel : Nat) (pars : List String) (c : Cache) :
    (∀ r cF n, createTitles h config oracle fuel pars c = .ok (r, cF, n) →
      ∀ i, i < pars.length → (r.sectionIdx.flatten).count i = 1)
    ∧ (∀ summaries c1 n1 secs c2 n2 it spws c3 usage texts,
        summarizeParagraphs h config oracle pars c = .ok (summaries, c1, n1) →
        wordsToParagraphs h config oracle fuel
          ((((summaries.enum).map
            (fun p => (splitWsStr p.2).map (fun w => (p.1, w)))).flatten).map
            (fun p => p.2)) c1 = .ok (secs, c2, n2, it) →
        sectionLoop h secs
          (((summaries.enum).map
            (fun p => (splitWsStr p.2).map (fun w => (p.1, w)))).flatten) c2
          = .ok (spws, c3) →
        buildSections pars
          (chunkRuns ((buildParInSection spws).map (fun e => (e.2.1, e.1)))) []
          = some (usage, texts) →
        usage.length ≠ pars.length →
        createTitles h config oracle fuel pars c = .error .consistency) := by
  constructor
  · intro r cF n hok i hi
    simp only [createTitles] at hok
    cases hsum : summarizeParagraphs h config oracle pars c with
    | error e => simp only [hsum] at hok; exact Except.noConfusion hok
    | ok t1 =>
      obtain ⟨summaries, c1, n1⟩ := t1
      simp only [hsum] at hok
      cases hwtp : wordsToParagraphs h config oracle fuel
          ((((summaries.enum).map
            (fun p => (splitWsStr p.2).map (fun w => (p.1, w)))).flatten).map
            (fun p => p.2)) c1 with
      | error e => simp only [hwtp] at hok; exact Except.noConfusion hok
      | ok t2 =>
        obtain ⟨secs, c2, n2, it⟩ := t2
        simp only [hwtp] at hok
        cases hsl : sectionLoop h secs
            (((summaries.enum).map
              (fun p => (splitWsStr p.2).map (fun w => (p.1, w)))).flatten) c2 with
        | error e => simp only [hsl] at hok; exact Except.noConfusion hok
        | ok t3 =>
          obtain ⟨spws, c3⟩ := t3
          simp only [hsl] at hok
          cases hbs : buildSections pars
              (chunkRuns ((buildParInSection spws).map (fun e => (e.2.1, e.1)))) [] with
          | none => simp only [hbs] at hok; exact Except.noConfusion hok
          | some pr =>
            obtain ⟨usage, texts⟩ := pr
            simp only [hbs] at hok
            by_cases hul : usage.length ≠ pars.length
            · rw [if_pos hul] at hok
              exact Except.noConfusion hok
            · rw [if_neg hul] at hok
              cases hemit : emitSections h config oracle texts c3 with
              | error e => simp only [hemit] at hok; exact Except.noConfusion hok
              | ok t4 =>
                obtain ⟨finalText, c4, n3⟩ := t4
                simp only [hemit] at hok
                have hr : r.sectionIdx
                    = chunkRuns ((buildParInSection spws).map (fun e => (e.2.1, e.1))) := by
                  have hinj := Except.ok.inj hok
                  obtain ⟨h1, -⟩ := Prod.mk.injEq .. ▸ hinj
                  rw [← h1]
                obtain ⟨hmem, hnd, hbnd⟩ := buildSections_spec pars _ [] usage texts hbs
                have hkeys := groups_flatten spws
                have hndk : ((buildParInSection spws).map Prod.fst).Nodup :=
                  (buildParInSection_pairwise spws).imp (fun hab => Nat.ne_of_lt hab)
                have husage_mem : ∀ x, x ∈ usage
                    ↔ x ∈ (buildParInSection spws).map Prod.fst := by
                  intro x
                  rw [hmem x, ← hkeys]
                  simp
                have hub : ∀ x ∈ usage, x < pars.length := by
                  intro x hx
                  refine hbnd x ?_
                  rw [hkeys]
                  exact (husage_mem x).mp hx
                have hsub : usage ⊆ List.range pars.length := by
                  intro x hx
                  exact List.mem_range.mpr (hub x hx)
                have hnd0 : usage.Nodup := hnd List.nodup_nil
                have hlen : usage.length = pars.length := by omega
                have hperm : usage.Perm (List.range pars.length) :=
                  (hnd0.subperm hsub).perm_of_length_le
                    (by rw [List.length_range]; omega)
                have hiu : i ∈ usage := hperm.mem_iff.mpr (List.mem_range.mpr hi)
                have hik : i ∈ (chunkRuns
                    ((buildParInSection spws).map (fun e => (e.2.1, e.1)))).flatten := by
                  rw [hkeys]
                  exact (husage_mem i).mp hiu
                have hndf : ((chunkRuns
                    ((buildParInSection spws).map (fun e => (e.2.1, e.1)))).flatten).Nodup := by
                  rw [hkeys]
                  exact hndk
                rw [hr]
                exact List.count_eq_one_of_mem hndf hik
  · intro summaries c1 n1 secs c2 n2 it spws c3 usage texts hsum hwtp hsl hbs hne
    simp only [createTitles, hsum, hwtp, hsl, hbs]
    rw [if_pos hne]

set_option maxRecDepth 8000 in
/-- Witness for `sections_partition`: the two-paragraph document
`["a", "b"]` under a faithful oracle assembles into one section holding
both paragraph indices; index 0 appears exactly once. -/
theorem sections_partition_witness :
    0 < (["a", "b"] : List String).length
    ∧ (c7res.sectionIdx.flatten).count 0 = 1 :=
  ⟨by decide,
    (sections_partition id "cfg" (fun _ u _ => u) 2 ["a", "b"] emptyCache).1
      c7res c7cacheF c7calls rfl 0 (by decide)⟩
